import Mathlib
set_option maxRecDepth 100000

/-!
# Verification of the genesis-go-chain core engine

A shallow embedding of the core data model and operations of the
`blockchain-node` repository: hash primitives (Keccak-256 as used by
`crypto.Keccak256`, SHA-256 as used by the PoW engine), the block /
transaction / account data model (`core` package), the world-state store
(`core.StateDB`), the execution engine (`core.ExecutionEngine`), the chain
manager (`core.Blockchain`), the PoW engine (`consensus.ProofOfWork`) and
both mempool variants (`mempool` package).

Bytes are modelled as `List Nat` (each entry a byte value), `uint64`
arithmetic as `Nat` reduced modulo `2^64` where Go wraps, and `*big.Int`
values as `Int`.  Go's `int64(x)` reinterpretation of a `uint64` is
modelled explicitly by `toInt64`.  Fallible operations return `Option`
errors.  Go map iteration (whose order is unspecified) is made explicit:
functions that iterate over a map take the enumeration as a parameter, or
use the model's association-list order where no result depends on it.
-/

namespace Chain

/-! ## Machine-integer helpers -/

/-- `2^64`, the modulus of Go `uint64` arithmetic. -/
def w64 : Nat := 18446744073709551616

/-- Reduce to a `uint64` value (Go wrap-around). -/
def u64 (n : Nat) : Nat := n % w64

/-- Go `uint64` subtraction `a - b` (wraps modulo `2^64`). -/
def u64sub (a b : Nat) : Nat := (a + w64 - b % w64) % w64

/-- Go `int64(x)` reinterpretation of a `uint64` value: two's complement. -/
def toInt64 (n : Nat) : Int :=
  if n % w64 < 9223372036854775808 then ((n % w64 : Nat) : Int)
  else ((n % w64 : Nat) : Int) - (w64 : Int)

/-- Minimal big-endian byte representation of a `Nat`
(fuel-driven; the fuel `n+1` always suffices since the argument
shrinks by a factor of 256 each step).  `natBytes 0 = []`,
matching Go's `big.Int.Bytes()` on zero. -/
def natBytesAux : Nat → Nat → List Nat
  | 0, _ => []
  | fuel + 1, n => if n = 0 then [] else natBytesAux fuel (n / 256) ++ [n % 256]

/-- `big.Int.Bytes()` of a non-negative value: minimal big-endian bytes. -/
def natBytes (n : Nat) : List Nat := natBytesAux (n + 1) n

/-- `big.Int.Bytes()` on an arbitrary `Int`: the minimal big-endian
bytes of the absolute value (Go returns the magnitude). -/
def intBytes (i : Int) : List Nat := natBytes i.natAbs

/-- `big.Int.Uint64()`: the low 64 bits of the magnitude. -/
def intUint64 (i : Int) : Nat := i.natAbs % w64

/-! ## Keccak-256 (as `sha3.NewLegacyKeccak256` used by `crypto.Keccak256`) -/

/-- Rotate a 64-bit word left by `n` (`0 ≤ n < 64`). -/
def rotl64 (a n : Nat) : Nat :=
  ((a <<< n) ||| (a >>> (64 - n))) % 18446744073709551616

/-- Bitwise NOT on a 64-bit word. -/
def not64 (a : Nat) : Nat := 18446744073709551615 ^^^ a

/-- Keccak-f[1600] round constants. -/
def keccakRC : List Nat :=
  [1, 32898, 9223372036854808714,
   9223372039002292224, 32907, 2147483649,
   9223372039002292353, 9223372036854808585, 138,
   136, 2147516425, 2147483658,
   2147516555, 9223372036854775947, 9223372036854808713,
   9223372036854808579, 9223372036854808578, 9223372036854775936,
   32778, 9223372039002259466, 9223372039002292353,
   9223372036854808704, 2147483649, 9223372039002292232]

/-- Keccak rho rotation offsets, indexed as `r[x][y]` for lane `(x, y)`. -/
def keccakRot (x y : Nat) : Nat :=
  [[0, 36, 3, 41, 18],
   [1, 44, 10, 45, 2],
   [62, 6, 43, 15, 61],
   [28, 55, 25, 21, 56],
   [27, 20, 39, 8, 14]].getD x [] |>.getD y 0

/-- Lane `(x, y)` of a 25-lane Keccak state. -/
def lane (s : List Nat) (x y : Nat) : Nat := s.getD (x + 5 * y) 0

def theta (s : List Nat) : List Nat :=
  let c := fun x => lane s x 0 ^^^ lane s x 1 ^^^ lane s x 2 ^^^ lane s x 3 ^^^ lane s x 4
  let d := fun x => c ((x + 4) % 5) ^^^ rotl64 (c ((x + 1) % 5)) 1
  (List.range 25).map fun i => (s.getD i 0) ^^^ d (i % 5)

def rhoPi (s : List Nat) : List Nat :=
  (List.range 25).map fun j =>
    let xo := j % 5
    let yo := j / 5
    let x := (3 * yo + xo) % 5
    let y := xo
    rotl64 (lane s x y) (keccakRot x y)

def chi (s : List Nat) : List Nat :=
  (List.range 25).map fun j =>
    let x := j % 5
    let y := j / 5
    lane s x y ^^^ (not64 (lane s ((x + 1) % 5) y) &&& lane s ((x + 2) % 5) y)

def iota (rc : Nat) (s : List Nat) : List Nat :=
  s.set 0 ((s.getD 0 0) ^^^ rc)

def keccakF (s : List Nat) : List Nat :=
  keccakRC.foldl (fun st rc => iota rc (chi (rhoPi (theta st)))) s

/-- 8 little-endian bytes to one 64-bit lane. -/
def bytesToLane (bs : List Nat) : Nat :=
  bs.foldr (fun b acc => acc * 256 + b) 0

/-- One 64-bit lane to 8 little-endian bytes. -/
def laneToBytes (w : Nat) : List Nat :=
  [w % 256, w / 256 % 256, w / 256 ^ 2 % 256, w / 256 ^ 3 % 256,
   w / 256 ^ 4 % 256, w / 256 ^ 5 % 256, w / 256 ^ 6 % 256, w / 256 ^ 7 % 256]

/-- Split a list into chunks of size `sz` (fuel-driven; fuel `len+1` suffices). -/
def chunkAux (sz : Nat) : Nat → List Nat → List (List Nat)
  | 0, _ => []
  | _, [] => []
  | fuel + 1, l => l.take sz :: chunkAux sz fuel (l.drop sz)

def chunks (sz : Nat) (l : List Nat) : List (List Nat) := chunkAux sz (l.length + 1) l

/-- Absorb one 136-byte block (XOR into the first 17 lanes, then permute). -/
def absorbBlock (st : List Nat) (block : List Nat) : List Nat :=
  let lanes := (chunks 8 block).map bytesToLane
  keccakF ((List.range 25).map fun i =>
    if i < 17 then (st.getD i 0) ^^^ lanes.getD i 0 else st.getD i 0)

/-- Legacy Keccak padding (domain byte 0x01) to a multiple of the 136-byte rate. -/
def keccakPad (msg : List Nat) : List Nat :=
  let q := 136 - msg.length % 136
  if q = 1 then msg ++ [0x81]
  else msg ++ [0x01] ++ List.replicate (q - 2) 0 ++ [0x80]

/-- Keccak-256 digest of a byte sequence (`crypto.Keccak256`). -/
def Keccak256 (msg : List Nat) : List Nat :=
  let final := (chunks 136 (keccakPad msg)).foldl absorbBlock (List.replicate 25 0)
  (laneToBytes (final.getD 0 0)) ++ (laneToBytes (final.getD 1 0)) ++
  (laneToBytes (final.getD 2 0)) ++ (laneToBytes (final.getD 3 0))

/-! ## SHA-256 (as `crypto/sha256.Sum256` used by the PoW engine) -/

def rotr32 (a n : Nat) : Nat :=
  ((a >>> n) ||| (a <<< (32 - n))) % 4294967296

def sha256K : List Nat :=
  [1116352408, 1899447441, 3049323471, 3921009573, 961987163, 1508970993,
   2453635748, 2870763221, 3624381080, 310598401, 607225278, 1426881987,
   1925078388, 2162078206, 2614888103, 3248222580, 3835390401, 4022224774,
   264347078, 604807628, 770255983, 1249150122, 1555081692, 1996064986,
   2554220882, 2821834349, 2952996808, 3210313671, 3336571891, 3584528711,
   113926993, 338241895, 666307205, 773529912, 1294757372, 1396182291,
   1695183700, 1986661051, 2177026350, 2456956037, 2730485921, 2820302411,
   3259730800, 3345764771, 3516065817, 3600352804, 4094571909, 275423344,
   430227734, 506948616, 659060556, 883997877, 958139571, 1322822218,
   1537002063, 1747873779, 1955562222, 2024104815, 2227730452, 2361852424,
   2428436474, 2756734187, 3204031479, 3329325298]

/-- 4 big-endian bytes to a 32-bit word. -/
def bytesToWordBE (bs : List Nat) : Nat :=
  bs.foldl (fun acc b => acc * 256 + b) 0

def wordToBytesBE (w : Nat) : List Nat :=
  [w / 256 ^ 3 % 256, w / 256 ^ 2 % 256, w / 256 % 256, w % 256]

/-- SHA-256 message schedule: extend 16 words to 64. -/
def sha256Extend : Nat → List Nat → List Nat
  | 0, ws => ws
  | fuel + 1, ws =>
    let i := ws.length
    let w15 := ws.getD (i - 15) 0
    let w2 := ws.getD (i - 2) 0
    let s0 := rotr32 w15 7 ^^^ rotr32 w15 18 ^^^ (w15 >>> 3)
    let s1 := rotr32 w2 17 ^^^ rotr32 w2 19 ^^^ (w2 >>> 10)
    sha256Extend fuel (ws ++ [(ws.getD (i - 16) 0 + s0 + ws.getD (i - 7) 0 + s1) % 4294967296])

structure Sha256Regs where
  a : Nat
  b : Nat
  c : Nat
  d : Nat
  e : Nat
  f : Nat
  g : Nat
  h : Nat

def sha256Round (r : Sha256Regs) (kw : Nat × Nat) : Sha256Regs :=
  let s1 := rotr32 r.e 6 ^^^ rotr32 r.e 11 ^^^ rotr32 r.e 25
  let ch := (r.e &&& r.f) ^^^ (not64 r.e % 4294967296 &&& r.g)
  let t1 := (r.h + s1 + ch + kw.1 + kw.2) % 4294967296
  let s0 := rotr32 r.a 2 ^^^ rotr32 r.a 13 ^^^ rotr32 r.a 22
  let mj := (r.a &&& r.b) ^^^ (r.a &&& r.c) ^^^ (r.b &&& r.c)
  let t2 := (s0 + mj) % 4294967296
  ⟨(t1 + t2) % 4294967296, r.a, r.b, r.c, (r.d + t1) % 4294967296, r.e, r.f, r.g⟩

def sha256Block (hs : List Nat) (block : List Nat) : List Nat :=
  let ws := sha256Extend 48 ((chunks 4 block).map bytesToWordBE)
  let init : Sha256Regs :=
    ⟨hs.getD 0 0, hs.getD 1 0, hs.getD 2 0, hs.getD 3 0,
     hs.getD 4 0, hs.getD 5 0, hs.getD 6 0, hs.getD 7 0⟩
  let r := (sha256K.zip ws).foldl sha256Round init
  [(hs.getD 0 0 + r.a) % 4294967296, (hs.getD 1 0 + r.b) % 4294967296,
   (hs.getD 2 0 + r.c) % 4294967296, (hs.getD 3 0 + r.d) % 4294967296,
   (hs.getD 4 0 + r.e) % 4294967296, (hs.getD 5 0 + r.f) % 4294967296,
   (hs.getD 6 0 + r.g) % 4294967296, (hs.getD 7 0 + r.h) % 4294967296]

def sha256Pad (msg : List Nat) : List Nat :=
  let lenBits := msg.length * 8
  let q := (64 - (msg.length + 9) % 64) % 64
  msg ++ [0x80] ++ List.replicate q 0 ++
    [lenBits / 256 ^ 7 % 256, lenBits / 256 ^ 6 % 256, lenBits / 256 ^ 5 % 256,
     lenBits / 256 ^ 4 % 256, lenBits / 256 ^ 3 % 256, lenBits / 256 ^ 2 % 256,
     lenBits / 256 % 256, lenBits % 256]

/-- SHA-256 digest of a byte sequence (`crypto/sha256.Sum256`). -/
def Sha256 (msg : List Nat) : List Nat :=
  let hs := (chunks 64 (sha256Pad msg)).foldl sha256Block
    [1779033703, 3144134277, 1013904242, 2773480762,
     1359893119, 2600822924, 528734635, 1541459225]
  (hs.take 8).foldr (fun w acc => wordToBytesBE w ++ acc) []

/-! ## Addresses, hashes and association lists

`crypto.Address` is a 20-byte array and `crypto.Hash` a 32-byte array;
both are modelled as byte lists (`.Bytes()` of the Go values).  Go maps
keyed by addresses or hashes are modelled as association lists; `aset`
updates in place or appends, `adelete` removes the key. -/

abbrev Address := List Nat

abbrev HashV := List Nat

/-- The zero `crypto.Hash{}` (32 zero bytes). -/
def zeroHash : HashV := List.replicate 32 0

/-- The zero `crypto.Address{}` (20 zero bytes). -/
def zeroAddress : Address := List.replicate 20 0

/-- `crypto.Hash.SetBytes` / `BytesToHash`: right-align into 32 bytes,
keeping the last 32 bytes when longer. -/
def BytesToHash (b : List Nat) : HashV :=
  let b' := if b.length > 32 then b.drop (b.length - 32) else b
  List.replicate (32 - b'.length) 0 ++ b'

/-- `crypto.BytesToAddress`: right-align into 20 bytes. -/
def BytesToAddress (b : List Nat) : Address :=
  let b' := if b.length > 20 then b.drop (b.length - 20) else b
  List.replicate (20 - b'.length) 0 ++ b'

/-- Lookup in an association list (Go map read). -/
def alookup {κ α : Type} [DecidableEq κ] (k : κ) : List (κ × α) → Option α
  | [] => none
  | (k', v) :: t => if k' = k then some v else alookup k t

/-- Update/insert in an association list (Go map write). -/
def aset {κ α : Type} [DecidableEq κ] (k : κ) (v : α) : List (κ × α) → List (κ × α)
  | [] => [(k, v)]
  | (k', v') :: t => if k' = k then (k, v) :: t else (k', v') :: aset k v t

/-- Delete from an association list (Go map delete). -/
def adelete {κ α : Type} [DecidableEq κ] (k : κ) : List (κ × α) → List (κ × α)
  | [] => []
  | (k', v') :: t => if k' = k then t else (k', v') :: adelete k t

/-- Lowercase hex characters (as ASCII codes) of one byte. -/
def byteHexChars (b : Nat) : List Nat :=
  let digit := fun d => if d < 10 then 48 + d else 87 + d
  [digit (b / 16 % 16), digit (b % 16)]

/-- `crypto.Hash.Hex()`: the ASCII codes of `0x` followed by 64 lowercase
hex characters. -/
def hashHex (h : HashV) : List Nat :=
  [48, 120] ++ h.foldr (fun b acc => byteHexChars b ++ acc) []

/-- ASCII codes of a short hex literal such as the Go string
`"0xa9059cbb"` that the contract-call dispatch compares against. -/
def hexLiteral (bytes : List Nat) : List Nat :=
  [48, 120] ++ bytes.foldr (fun b acc => byteHexChars b ++ acc) []

/-! ## Core data model (`core` package) -/

/-- `core.Account`. -/
structure Account where
  Nonce : Nat
  Balance : Int
  CodeHash : HashV
  StorageRoot : HashV
deriving DecidableEq

/-- The zero-valued account Go creates with
`&Account{Nonce: 0, Balance: big.NewInt(0)}` (array fields zero). -/
def freshAccount : Account :=
  { Nonce := 0, Balance := 0, CodeHash := zeroHash, StorageRoot := zeroHash }

/-- `core.Log` (the fields the execution engine populates). -/
structure Log where
  Address : Address
  Topics : List HashV
  Data : List Nat
deriving DecidableEq

/-- `core.Transaction`.  `To = none` denotes contract creation; the
signature components are `Option` because the Go fields are `*big.Int`
pointers that may be nil. -/
structure Transaction where
  Nonce : Nat
  GasPrice : Int
  GasLimit : Nat
  To : Option Address
  Value : Int
  Data : List Nat
  V : Option Int
  R : Option Int
  S : Option Int
  Hash : HashV
  From : Address
deriving DecidableEq

/-- `core.BlockHeader`. -/
structure BlockHeader where
  PreviousHash : HashV
  StateRoot : HashV
  TransactionsRoot : HashV
  ReceiptsRoot : HashV
  Number : Int
  GasLimit : Nat
  GasUsed : Nat
  Timestamp : Nat
  Nonce : Nat
  Difficulty : Int
  Coinbase : Address
  ExtraData : List Nat
deriving DecidableEq

/-- `core.Block`. -/
structure Block where
  Header : BlockHeader
  Transactions : List Transaction
  Hash : HashV
deriving DecidableEq

/-- `BlockHeader.Serialize`: `previous_hash ‖ state_root ‖
transactions_root ‖ number.Bytes() ‖ big.NewInt(int64(timestamp)).Bytes()
‖ big.NewInt(int64(nonce)).Bytes()`.  Note: gas limit, gas used,
receipts root, coinbase, difficulty and extra data are NOT serialized. -/
def BlockHeader.Serialize (h : BlockHeader) : List Nat :=
  h.PreviousHash ++ h.StateRoot ++ h.TransactionsRoot ++
    intBytes h.Number ++ intBytes (toInt64 h.Timestamp) ++ intBytes (toInt64 h.Nonce)

/-- `Block.CalculateHash`: Keccak-256 of the serialized header. -/
def Block.CalculateHash (b : Block) : HashV :=
  BytesToHash (Keccak256 b.Header.Serialize)

/-- `Transaction.CalculateHash`: Keccak-256 over
`(nonce, gas_price, gas_limit, to, value, data)`. -/
def Transaction.CalculateHash (tx : Transaction) : HashV :=
  let data := intBytes (toInt64 tx.Nonce) ++ intBytes tx.GasPrice ++
    intBytes (toInt64 tx.GasLimit) ++
    (match tx.To with
     | some dst => dst
     | none => []) ++ intBytes tx.Value ++ tx.Data
  BytesToHash (Keccak256 data)

/-- `Transaction.IsContractCreation`. -/
def Transaction.IsContractCreation (tx : Transaction) : Bool := tx.To.isNone

/-! ## PoW engine (`consensus.ProofOfWork`) -/

/-- `ProofOfWork.calculateTarget`: `1 << uint(256 - difficulty.Uint64())`
(the shift amount is a Go `uint`, hence reduced modulo `2^64`). -/
def calculateTarget (difficulty : Int) : Nat :=
  2 ^ ((256 + w64 - intUint64 difficulty % w64) % w64)

/-- The byte sequence `ProofOfWork.calculateHash` feeds to SHA-256:
`previous_hash ‖ state_root ‖ transactions_root ‖ number.Bytes() ‖
big.NewInt(int64(timestamp)).Bytes() ‖ big.NewInt(int64(nonce)).Bytes()
‖ difficulty.Bytes()` where `difficulty` is the engine's field. -/
def powData (difficulty : Int) (b : Block) : List Nat :=
  b.Header.PreviousHash ++ b.Header.StateRoot ++ b.Header.TransactionsRoot ++
    intBytes b.Header.Number ++ intBytes (toInt64 b.Header.Timestamp) ++
    intBytes (toInt64 b.Header.Nonce) ++ intBytes difficulty

/-- `ProofOfWork.calculateHash`: SHA-256 of `powData`. -/
def powCalculateHash (difficulty : Int) (b : Block) : HashV :=
  BytesToHash (Sha256 (powData difficulty b))

/-- Big-endian integer value of a hash (`new(big.Int).SetBytes(hash[:])`). -/
def hashToNat (h : HashV) : Nat := h.foldl (fun acc b => acc * 256 + b) 0

/-- `ProofOfWork.ValidateBlock`: recomputed PoW digest below target. -/
def powValidateBlock (difficulty : Int) (b : Block) : Bool :=
  hashToNat (powCalculateHash difficulty b) < calculateTarget difficulty

/-! ## World-state store (`core.StateDB`)

The byte store holding JSON-encoded accounts under `account-<addr>` and
storage cells under `storage-<addr><key>` is modelled at the decoded
level (`dbAccounts`, `dbStorage`).  The in-memory caches `accounts` and
`storage` are association lists of the cached values. -/

structure StateDB where
  stateRoot : HashV
  dbAccounts : List (Address × Account)
  dbStorage : List ((Address × HashV) × HashV)
  accounts : List (Address × Account)
  storage : List (Address × List (HashV × HashV))
  logs : List Log
deriving DecidableEq

/-- `StateDB.GetAccount`: cache hit, else load from the byte store and
cache it, else nil.  Returns the account (if any) together with the
store (whose cache may have gained the loaded entry). -/
def StateDB.GetAccount (s : StateDB) (addr : Address) : Option Account × StateDB :=
  match alookup addr s.accounts with
  | some account => (some account, s)
  | none =>
    match alookup addr s.dbAccounts with
    | some account => (some account, { s with accounts := aset addr account s.accounts })
    | none => (none, s)

/-- `StateDB.SetAccount`: cache-only update. -/
def StateDB.SetAccount (s : StateDB) (addr : Address) (account : Account) : StateDB :=
  { s with accounts := aset addr account s.accounts }

/-- `StateDB.calculateStateRoot`: concatenate, over the cached accounts
in iteration order, `addr ‖ balance.Bytes() ‖
big.NewInt(int64(nonce)).Bytes() ‖ code_hash`, then over the cached
storage `addr ‖ (key ‖ value)*`; zero hash when the concatenation is
empty, else Keccak-256.  The Go code iterates two maps whose order is
unspecified; the model iterates the association lists in order. -/
def StateDB.calculateStateRoot (s : StateDB) : HashV :=
  let data := s.accounts.foldl
    (fun d (e : Address × Account) =>
      d ++ e.1 ++ intBytes e.2.Balance ++ intBytes (toInt64 e.2.Nonce) ++ e.2.CodeHash) []
  let data := s.storage.foldl
    (fun d (e : Address × List (HashV × HashV)) =>
      d ++ e.1 ++ e.2.foldl (fun d2 (kv : HashV × HashV) => d2 ++ kv.1 ++ kv.2) []) data
  if data.length = 0 then zeroHash else BytesToHash (Keccak256 data)

/-- `StateDB.Commit`: write every cached account and storage cell to the
byte store (one batch), compute the new state root from the caches,
install it, clear the caches, return the root. -/
def StateDB.Commit (s : StateDB) : HashV × StateDB :=
  let dbAccounts := s.accounts.foldl (fun db (e : Address × Account) => aset e.1 e.2 db) s.dbAccounts
  let dbStorage := s.storage.foldl
    (fun db (e : Address × List (HashV × HashV)) =>
      e.2.foldl (fun db2 (kv : HashV × HashV) => aset (e.1, kv.1) kv.2 db2) db) s.dbStorage
  let newRoot := s.calculateStateRoot
  (newRoot,
   { stateRoot := newRoot, dbAccounts := dbAccounts, dbStorage := dbStorage,
     accounts := [], storage := [], logs := [] })

/-! ## Execution engine (`core.ExecutionEngine`) -/

inductive ExecError where
  | InvalidSignature
  | InvalidNonce
  | InsufficientBalance
  | GasLimitExceeded
deriving DecidableEq

structure ExecutionResult where
  GasUsed : Nat
  Status : Nat
  Logs : List Log
  ContractAddress : Option Address
  Error : Option ExecError
deriving DecidableEq

structure ContractExecutionResult where
  logs : List Log
deriving DecidableEq

/-- Go `copy(dst[:n], src)` into `n` zero bytes: the first
`min n src.length` bytes of `src`, zero-padded on the right. -/
def copyPad (n : Nat) (src : List Nat) : List Nat :=
  src.take n ++ List.replicate (n - (src.take n).length) 0

/-- `ExecutionEngine.validateSignature`.  The 65-byte signature is
`copy(sig[:32], R.Bytes()) ‖ copy(sig[32:64], S.Bytes()) ‖ byte(V.Uint64())`.
Recovery (`crypto.RecoverAddressFunc`, secp256k1 public-key recovery via
an external library) is a parameter; `none` models a recovery error.
Nil signature components would make the Go code dereference a nil
`*big.Int` (a runtime panic); modelled as a signature failure. -/
def validateSignature (recover : HashV → List Nat → Option Address)
    (tx : Transaction) : Option ExecError :=
  match tx.V, tx.R, tx.S with
  | some v, some r, some s =>
    let hash := tx.CalculateHash
    let signature := copyPad 32 (intBytes r) ++ copyPad 32 (intBytes s) ++ [intUint64 v % 256]
    match recover hash signature with
    | none => some ExecError.InvalidSignature
    | some recoveredAddr =>
      if recoveredAddr = tx.From then none else some ExecError.InvalidSignature
  | _, _, _ => some ExecError.InvalidSignature

/-- `ExecutionEngine.generateContractAddress`:
`hash(sender ‖ big.NewInt(int64(nonce)).Bytes())`, last 20 bytes. -/
def generateContractAddress (sender : Address) (nonce : Nat) : Address :=
  let data := sender ++ intBytes (toInt64 nonce)
  (BytesToHash (Keccak256 data)).drop 12

/-- `ExecutionEngine.executeContractCreation`: charge 32000 gas (the
increment happens before the limit check and persists on error), then
emit a contract-created log. -/
def executeContractCreation (tx : Transaction) (contractAddr : Address)
    (gasUsed : Nat) : Option ContractExecutionResult × Option ExecError × Nat :=
  let gu := u64 (gasUsed + 32000)
  if gu > tx.GasLimit then (none, some ExecError.GasLimitExceeded, gu)
  else
    (some ⟨[{ Address := contractAddr, Topics := [BytesToHash [1]], Data := tx.Data }]⟩,
     none, gu)

/-- `ExecutionEngine.executeTransfer`: charge 5000 gas, emit the
canonical transfer log. -/
def executeTransfer (tx : Transaction) (contractAddr : Address)
    (gasUsed : Nat) : Option ContractExecutionResult × Option ExecError × Nat :=
  let gu := u64 (gasUsed + 5000)
  if gu > tx.GasLimit then (none, some ExecError.GasLimitExceeded, gu)
  else
    (some ⟨[{ Address := contractAddr,
              Topics := [[221, 242, 82, 173, 27, 226, 200, 155,
                          105, 194, 176, 104, 252, 55, 141, 170,
                          149, 43, 167, 241, 99, 196, 161, 22,
                          40, 245, 90, 77, 245, 35, 179, 239],
                         BytesToHash tx.From],
              Data := tx.Data.drop 4 }]⟩,
     none, gu)

/-- `ExecutionEngine.executeBalanceOf`: charge 400 gas, no logs. -/
def executeBalanceOf (tx : Transaction) (contractAddr : Address)
    (gasUsed : Nat) : Option ContractExecutionResult × Option ExecError × Nat :=
  let gu := u64 (gasUsed + 400)
  if gu > tx.GasLimit then (none, some ExecError.GasLimitExceeded, gu)
  else (some ⟨[]⟩, none, gu)

/-- `ExecutionEngine.executeContractCall`: charge 700 gas (before the
limit check), then dispatch on the 4-byte selector.  The Go switch
compares `BytesToHash(selector).Hex()` — a 66-character string — against
10-character literals such as `"0xa9059cbb"`, so the transfer and
balanceOf cases never match and every selector falls to the default
generic-log branch. -/
def executeContractCall (tx : Transaction) (contractAddr : Address)
    (gasUsed : Nat) : Option ContractExecutionResult × Option ExecError × Nat :=
  let gu := u64 (gasUsed + 700)
  if gu > tx.GasLimit then (none, some ExecError.GasLimitExceeded, gu)
  else if tx.Data.length ≥ 4 then
    let selector := tx.Data.take 4
    if hashHex (BytesToHash selector) = hexLiteral [0xa9, 0x05, 0x9c, 0xbb] then
      executeTransfer tx contractAddr gu
    else if hashHex (BytesToHash selector) = hexLiteral [0x70, 0xa0, 0x82, 0x31] then
      executeBalanceOf tx contractAddr gu
    else
      (some ⟨[{ Address := contractAddr, Topics := [BytesToHash [2]], Data := tx.Data }]⟩,
       none, gu)
  else (some ⟨[]⟩, none, gu)

/-- The common tail of `ExecuteTransaction` (after the branch on
`tx.To`): deduct the value from the sender, refund the remaining gas
when positive (a Go `uint64` difference reinterpreted through `int64`),
persist the sender, return status 1. -/
def finishExecution (s : StateDB) (tx : Transaction) (sender : Account)
    (gasUsed : Nat) (logs : List Log) (contractAddress : Option Address) :
    ExecutionResult × Option ExecError × StateDB :=
  let sender2 := { sender with Balance := sender.Balance - tx.Value }
  let remainingGas := u64sub tx.GasLimit gasUsed
  let sender3 :=
    if remainingGas > 0 then
      { sender2 with Balance := sender2.Balance + tx.GasPrice * toInt64 remainingGas }
    else sender2
  (⟨gasUsed, 1, logs, contractAddress, none⟩, none, s.SetAccount tx.From sender3)

/-- `ExecutionEngine.ExecuteTransaction`.  The Go code mutates the
sender `*Account` in place; when the account came from the cache (or was
cached by `GetAccount`) and `tx.To == tx.From`, the receiver read in the
transfer branch yields the same object, so the receiver credit is
applied to the already-deducted sender value.  The `senderFound ∧
To = From` case makes this aliasing explicit; in every other case the
accounts are distinct objects and value semantics coincide. -/
def ExecuteTransaction (recover : HashV → List Nat → Option Address)
    (s : StateDB) (tx : Transaction) : ExecutionResult × Option ExecError × StateDB :=
  match validateSignature recover tx with
  | some e => (⟨0, 0, [], none, some e⟩, some e, s)
  | none =>
    let found := (s.GetAccount tx.From).1.isSome
    let s1 := (s.GetAccount tx.From).2
    let sender0 := (s.GetAccount tx.From).1.getD freshAccount
    if sender0.Nonce ≠ tx.Nonce then
      (⟨0, 0, [], none, some ExecError.InvalidNonce⟩, some ExecError.InvalidNonce, s1)
    else
      let gasCost := tx.GasPrice * toInt64 tx.GasLimit
      let totalCost := tx.Value + gasCost
      if sender0.Balance < totalCost then
        (⟨0, 0, [], none, some ExecError.InsufficientBalance⟩,
         some ExecError.InsufficientBalance, s1)
      else
        let gasUsed := 21000
        let sender1 := { sender0 with
          Balance := sender0.Balance - gasCost, Nonce := u64 (sender0.Nonce + 1) }
        match tx.To with
        | none =>
          let contractAddr := generateContractAddress tx.From (u64sub tx.Nonce 1)
          if tx.Data.length > 0 then
            match executeContractCreation tx contractAddr gasUsed with
            | (_, some e, gu) =>
              let remainingGas := u64sub tx.GasLimit gu
              let refund := tx.GasPrice * toInt64 remainingGas
              let sender2 := { sender1 with Balance := sender1.Balance + refund }
              (⟨gu, 0, [], some contractAddr, some e⟩, none,
               s1.SetAccount tx.From sender2)
            | (res, none, gu) =>
              let logs := (res.getD ⟨[]⟩).logs
              let s2 := s1.SetAccount contractAddr
                { Nonce := 1, Balance := tx.Value, CodeHash := zeroHash, StorageRoot := zeroHash }
              finishExecution s2 tx sender1 gu logs (some contractAddr)
          else
            let s2 := s1.SetAccount contractAddr
              { Nonce := 1, Balance := tx.Value, CodeHash := zeroHash, StorageRoot := zeroHash }
            finishExecution s2 tx sender1 gasUsed [] (some contractAddr)
        | some dst =>
          if found ∧ dst = tx.From then
            let receiver1 := { sender1 with Balance := sender1.Balance + tx.Value }
            let s2 := s1.SetAccount dst receiver1
            if tx.Data.length > 0 then
              match executeContractCall tx dst gasUsed with
              | (some res, _, gu) => finishExecution s2 tx receiver1 gu res.logs none
              | (none, _, gu) => finishExecution s2 tx receiver1 gu [] none
            else
              finishExecution s2 tx receiver1 gasUsed [] none
          else
            let recv0 := ((s1.GetAccount dst).1).getD freshAccount
            let s1' := (s1.GetAccount dst).2
            let receiver1 := { recv0 with Balance := recv0.Balance + tx.Value }
            let s2 := s1'.SetAccount dst receiver1
            if tx.Data.length > 0 then
              match executeContractCall tx dst gasUsed with
              | (some res, _, gu) => finishExecution s2 tx sender1 gu res.logs none
              | (none, _, gu) => finishExecution s2 tx sender1 gu [] none
            else
              finishExecution s2 tx sender1 gasUsed [] none

/-! ## Persistent byte store and chain manager (`core.Blockchain`)

The byte store is a key-value map with fallible `Put`: each `Put`
consumes one flag from a failure schedule (an empty schedule means
success), modelling I/O failures of the underlying LevelDB store. -/

structure DB where
  entries : List (List Nat × List Nat)
  okSched : List Bool
deriving DecidableEq

/-- `Database.Put`: returns whether the write succeeded, and the store
(with the schedule advanced; entries updated only on success). -/
def DB.put (db : DB) (k v : List Nat) : Bool × DB :=
  match db.okSched with
  | [] => (true, { db with entries := aset k v db.entries })
  | ok :: rest =>
    if ok then (true, { entries := aset k v db.entries, okSched := rest })
    else (false, { db with okSched := rest })

/-- `Database.Get` (readback; not consulted by `addBlock`). -/
def DB.get (db : DB) (k : List Nat) : Option (List Nat) := alookup k db.entries

/-- ASCII bytes of the key prefix `block-`. -/
def blockPrefix : List Nat := [98, 108, 111, 99, 107, 45]

/-- ASCII bytes of the key prefix `block-number-`. -/
def blockNumberPrefix : List Nat :=
  [98, 108, 111, 99, 107, 45, 110, 117, 109, 98, 101, 114, 45]

/-- ASCII bytes of the key `current-block`. -/
def currentBlockKey : List Nat :=
  [99, 117, 114, 114, 101, 110, 116, 45, 98, 108, 111, 99, 107]

inductive ChainError where
  | ErrInvalidBlock
  | InvalidPreviousHash
  | InvalidNumber
  | InvalidHash
  | PutFailed
deriving DecidableEq

structure Blockchain where
  db : DB
  currentBlock : Option Block
  genesis : Option Block
deriving DecidableEq

/-- `Blockchain.validateBlock`: number positivity (relative to a non-nil
current block), parent-hash link, number sequence, and hash integrity.
Note: neither the PoW target condition nor the gas bound
`gas_used ≤ gas_limit` is checked. -/
def Blockchain.validateBlock (bc : Blockchain) (block : Block) : Option ChainError :=
  if block.Header.Number ≤ 0 ∧ bc.currentBlock.isSome then
    some ChainError.ErrInvalidBlock
  else
    match bc.currentBlock with
    | some current =>
      if block.Header.PreviousHash ≠ current.Hash then
        some ChainError.InvalidPreviousHash
      else if block.Header.Number ≠ current.Header.Number + 1 then
        some ChainError.InvalidNumber
      else if block.CalculateHash ≠ block.Hash then
        some ChainError.InvalidHash
      else none
    | none =>
      if block.CalculateHash ≠ block.Hash then some ChainError.InvalidHash
      else none

/-- `Blockchain.addBlock` (the private persistence step): THREE separate
`db.Put` calls in sequence — block bytes under `block-<hash>`, the
number index `block-number-<numberBytes>`, the `current-block` pointer —
with an early return on the first failure.  No write batch is used, so
earlier writes persist when a later one fails.  `serializeBlock` is a
placeholder in the source (`fmt.Sprintf`), taken here as a parameter. -/
def Blockchain.addBlockDb (serializeBlock : Block → List Nat) (db : DB)
    (block : Block) : Option ChainError × DB :=
  let data := serializeBlock block
  let r1 := db.put (blockPrefix ++ block.Hash) data
  if r1.1 then
    let r2 := r1.2.put (blockNumberPrefix ++ intBytes block.Header.Number) block.Hash
    if r2.1 then
      let r3 := r2.2.put currentBlockKey block.Hash
      if r3.1 then (none, r3.2) else (some ChainError.PutFailed, r3.2)
    else (some ChainError.PutFailed, r2.2)
  else (some ChainError.PutFailed, r1.2)

/-- `Blockchain.AddBlock`: validate, persist, then update the head
pointer.  A failed persistence leaves any earlier puts applied. -/
def Blockchain.AddBlock (serializeBlock : Block → List Nat) (bc : Blockchain)
    (block : Block) : Option ChainError × Blockchain :=
  match bc.validateBlock block with
  | some e => (some e, bc)
  | none =>
    match Blockchain.addBlockDb serializeBlock bc.db block with
    | (some e, db') => (some e, { bc with db := db' })
    | (none, db') => (none, { bc with db := db', currentBlock := some block })

/-! ## Heap-based mempool (`mempool.Mempool`, priority-queue variant)

`TransactionQueue` implements `container/heap` over a slice with
`Less(i, j) = Priority_i > Priority_j` (a max-heap on gas price).  The
slice is modelled as a list addressed by position; the `Index`
bookkeeping field (written but never read outside the positional heap
operations) is omitted.  `down`, `up`, `Init`, `Push` and `Pop` are the
`container/heap` algorithms; the loops are fuel-driven with fuel bounds
that always suffice (`down` strictly increases the index below `n`,
`up` strictly decreases it). -/

def dummyTransaction : Transaction :=
  { Nonce := 0, GasPrice := 0, GasLimit := 0, To := none, Value := 0, Data := [],
    V := none, R := none, S := none, Hash := [], From := [] }

structure QItem where
  Tx : Transaction
  Priority : Int
deriving DecidableEq

def dummyItem : QItem := ⟨dummyTransaction, 0⟩

abbrev TQ := List QItem

/-- `TransactionQueue.Less i j`: does position `i` have higher priority? -/
def qless (q : TQ) (i j : Nat) : Bool :=
  (q.getD i dummyItem).Priority > (q.getD j dummyItem).Priority

/-- `TransactionQueue.Swap`. -/
def swapL (q : TQ) (i j : Nat) : TQ :=
  (q.set i (q.getD j dummyItem)).set j (q.getD i dummyItem)

/-- `container/heap.down` (sift-down), fuel-driven. -/
def downAux : Nat → TQ → Nat → Nat → TQ
  | 0, q, _, _ => q
  | fuel + 1, q, i, n =>
    let j1 := 2 * i + 1
    if j1 ≥ n then q
    else
      let j := if j1 + 1 < n ∧ qless q (j1 + 1) j1 then j1 + 1 else j1
      if ¬ qless q j i then q
      else downAux fuel (swapL q i j) j n

def down (q : TQ) (i n : Nat) : TQ := downAux n q i n

/-- `container/heap.up` (sift-up), fuel-driven. -/
def upAux : Nat → TQ → Nat → TQ
  | 0, q, _ => q
  | fuel + 1, q, j =>
    let i := (j - 1) / 2
    if i = j ∨ ¬ qless q j i then q
    else upAux fuel (swapL q i j) i

/-- `container/heap.Init`: `down` at indices `n/2 - 1` down to `0`. -/
def heapInitAux : Nat → TQ → Nat → TQ
  | 0, q, _ => q
  | k + 1, q, n => heapInitAux k (down q k n) n

def heapInit (q : TQ) : TQ := heapInitAux (q.length / 2) q q.length

/-- `container/heap.Push`: append, then sift up from the last index. -/
def heapPush (q : TQ) (x : QItem) : TQ :=
  let q' := q ++ [x]
  upAux q'.length q' (q'.length - 1)

/-- `container/heap.Pop`: swap the root to the end, sift down the
prefix, remove and return the last element. -/
def heapPopGo (q : TQ) : QItem × TQ :=
  let n := q.length - 1
  let q2 := down (swapL q 0 n) 0 n
  (q2.getD n dummyItem, q2.take n)

inductive HMemError where
  | GasPriceTooLow
  | GasLimitZero
  | GasLimitTooHigh
  | TxTooLarge
  | InvalidSignatureComponents
  | NegativeValue
  | AlreadyExists
deriving DecidableEq

structure HConfig where
  MaxSize : Int
  MinGasPrice : Nat
  MaxTxSize : Int
deriving DecidableEq

structure HMempool where
  config : HConfig
  pending : List (HashV × Transaction)
  queue : TQ
  byFrom : List (Address × List Transaction)
deriving DecidableEq

/-- `Mempool.validateTransaction` (heap variant).  The Go nil checks on
`tx.Value` cannot fire in the model (`Value` is a plain integer); the
nil checks on the signature components are the `Option` tests. -/
def hValidateTransaction (cfg : HConfig) (tx : Transaction) : Option HMemError :=
  if tx.GasPrice < toInt64 cfg.MinGasPrice then some HMemError.GasPriceTooLow
  else if tx.GasLimit = 0 then some HMemError.GasLimitZero
  else if tx.GasLimit > 8000000 then some HMemError.GasLimitTooHigh
  else if cfg.MaxTxSize > 0 ∧ (208 + tx.Data.length : Int) > cfg.MaxTxSize then
    some HMemError.TxTooLarge
  else if tx.V.isNone ∨ tx.R.isNone ∨ tx.S.isNone then
    some HMemError.InvalidSignatureComponents
  else if tx.Value < 0 then some HMemError.NegativeValue
  else none

/-- One step of the `removeLowPriorityTransaction` scan: keep the first
transaction seen, then every strictly cheaper one. -/
def findLowestStep (acc : Option Transaction × Int) (e : HashV × Transaction) :
    Option Transaction × Int :=
  match acc with
  | (none, _) => (some e.2, e.2.GasPrice)
  | (some _, lowest) =>
    if e.2.GasPrice < lowest then (some e.2, e.2.GasPrice) else acc

/-- The scan of `removeLowPriorityTransaction` over the pending map
(`lowestTx` starts nil, `lowestGasPrice` starts 0).  The map iteration
order is unspecified in Go, so the enumeration is a parameter. -/
def findLowest (enum : List (HashV × Transaction)) : Option Transaction :=
  (enum.foldl findLowestStep ((none : Option Transaction), (0 : Int))).1

/-- Remove the first transaction with the given hash (the `byFrom` index
update loop). -/
def removeFirstTx (h : HashV) : List Transaction → List Transaction
  | [] => []
  | t :: rest => if t.Hash = h then rest else t :: removeFirstTx h rest

/-- `Mempool.rebuildQueue`: fresh items from the pending map (iterated
in list order), then `heap.Init`. -/
def rebuildQueue (pending : List (HashV × Transaction)) : TQ :=
  heapInit (pending.map fun e => ⟨e.2, e.2.GasPrice⟩)

/-- `Mempool.removeLowPriorityTransaction`, parameterized by the
iteration order `enum` of the pending map. -/
def removeLowPriorityTransaction (enum : List (HashV × Transaction))
    (mp : HMempool) : HMempool :=
  if mp.queue.length = 0 then mp
  else
    match findLowest enum with
    | none => mp
    | some lowestTx =>
      let pending := adelete lowestTx.Hash mp.pending
      let byFrom1 :=
        match alookup lowestTx.From mp.byFrom with
        | none => mp.byFrom
        | some l => aset lowestTx.From (removeFirstTx lowestTx.Hash l) mp.byFrom
      let byFrom2 :=
        if ((alookup lowestTx.From byFrom1).getD []).length = 0 then
          adelete lowestTx.From byFrom1
        else byFrom1
      { mp with pending := pending, byFrom := byFrom2, queue := rebuildQueue pending }

/-- `Mempool.AddTransaction` (heap variant): validate, reject
duplicates, evict the lowest-priority transaction when at capacity, then
insert into all three indices. -/
def HMempool.AddTransaction (enum : List (HashV × Transaction)) (mp : HMempool)
    (tx : Transaction) : Option HMemError × HMempool :=
  match hValidateTransaction mp.config tx with
  | some e => (some e, mp)
  | none =>
    if (alookup tx.Hash mp.pending).isSome then (some HMemError.AlreadyExists, mp)
    else
      let mp1 :=
        if (mp.pending.length : Int) ≥ mp.config.MaxSize then
          removeLowPriorityTransaction enum mp
        else mp
      (none,
       { mp1 with
         pending := aset tx.Hash tx mp1.pending,
         queue := heapPush mp1.queue ⟨tx, tx.GasPrice⟩,
         byFrom := aset tx.From ((alookup tx.From mp1.byFrom).getD [] ++ [tx]) mp1.byFrom })

/-- The pop loop of `GetPendingTransactionsForMining`: pop while the
copy is non-empty and fewer than `maxCount` items were taken. -/
def popLoopAux : Nat → TQ → Int → Int → List QItem
  | 0, _, _, _ => []
  | fuel + 1, q, count, maxCount =>
    if q.length > 0 ∧ count < maxCount then
      let p := heapPopGo q
      p.1 :: popLoopAux fuel p.2 (count + 1) maxCount
    else []

/-- `Mempool.GetPendingTransactionsForMining` (heap variant): copy the
queue, `heap.Init` the copy, pop up to `maxCount` items.  The pool
itself is not modified. -/
def HMempool.GetPendingTransactionsForMining (mp : HMempool) (maxCount : Int) :
    List Transaction :=
  if mp.queue.length = 0 then []
  else (popLoopAux mp.queue.length (heapInit mp.queue) 0 maxCount).map (·.Tx)

/-! ## Map-based mempool (`mempool.Mempool`, map variant) -/

inductive MMemError where
  | ErrMempoolFull
  | ErrTransactionExists
  | InsufficientGasPrice
  | GasLimitZero
  | NegativeValue
  | DataTooLarge
  | MissingSignatureComponents
  | InvalidSignatureValues
deriving DecidableEq

structure MConfig where
  MaxSize : Int
  MinGasPrice : Nat
deriving DecidableEq

structure MMempool where
  config : MConfig
  transactions : List (HashV × Transaction)
  pending : List (Address × List Transaction)
deriving DecidableEq

/-- `Mempool.validateSignature` (map variant): components present and
`V ≥ 0`, `R > 0`, `S > 0`. -/
def mValidateSignature (tx : Transaction) : Option MMemError :=
  match tx.V, tx.R, tx.S with
  | some v, some r, some s =>
    if v < 0 ∨ r ≤ 0 ∨ s ≤ 0 then some MMemError.InvalidSignatureValues else none
  | _, _, _ => some MMemError.MissingSignatureComponents

/-- `Mempool.validateTransaction` (map variant). -/
def mValidateTransaction (cfg : MConfig) (tx : Transaction) : Option MMemError :=
  if intUint64 tx.GasPrice < cfg.MinGasPrice then some MMemError.InsufficientGasPrice
  else if tx.GasLimit = 0 then some MMemError.GasLimitZero
  else if tx.Value < 0 then some MMemError.NegativeValue
  else if tx.Data.length > 32 * 1024 then some MMemError.DataTooLarge
  else mValidateSignature tx

/-- `Mempool.AddTransaction` (map variant): a full pool is rejected with
`ErrMempoolFull` before anything else — no eviction. -/
def MMempool.AddTransaction (mp : MMempool) (tx : Transaction) :
    Option MMemError × MMempool :=
  if (mp.transactions.length : Int) ≥ mp.config.MaxSize then
    (some MMemError.ErrMempoolFull, mp)
  else if (alookup tx.Hash mp.transactions).isSome then
    (some MMemError.ErrTransactionExists, mp)
  else
    match mValidateTransaction mp.config tx with
    | some e => (some e, mp)
    | none =>
      (none,
       { mp with
         transactions := aset tx.Hash tx mp.transactions,
         pending := aset tx.From ((alookup tx.From mp.pending).getD [] ++ [tx]) mp.pending })

/-- One sweep of the bubble-sort inner loop (`txs[j] < txs[j+1] → swap`,
carrying the running minimum right), written as structural recursion:
`bubbleCarry a t` is the sweep over `a :: t`. -/
def bubbleCarry (a : Transaction) : List Transaction → List Transaction
  | [] => [a]
  | b :: t =>
    if a.GasPrice < b.GasPrice then b :: bubbleCarry a t else a :: bubbleCarry b t

def onePass : List Transaction → List Transaction
  | [] => []
  | a :: t => bubbleCarry a t

/-- The outer bubble-sort loop (`i` from `0` to `len-2`): the pass with
countdown value `k + 1` corresponds to `i = len - 2 - k` and sweeps the
inner indices `j = 0 .. len-i-2`, i.e. the prefix of length `k + 2`;
the already-settled suffix is untouched. -/
def mSortAux : Nat → List Transaction → List Transaction
  | 0, l => l
  | k + 1, l => mSortAux k (onePass (l.take (k + 2)) ++ l.drop (k + 2))

/-- `Mempool.GetPendingTransactionsForMining` (map variant): enumerate
the transactions map (order is a parameter), bubble-sort descending by
gas price (`len - 1` shrinking passes), then truncate only when
`limit > 0`. -/
def MMempool.GetPendingTransactionsForMining (enum : List (HashV × Transaction))
    (mp : MMempool) (limit : Int) : List Transaction :=
  let txs := enum.map (·.2)
  let sorted := mSortAux (txs.length - 1) txs
  if 0 < limit ∧ (sorted.length : Int) > limit then sorted.take limit.toNat else sorted

/-! ## Derived read-only views -/

/-- The observable account mapping of a `StateDB` (what `GetAccount`
returns, ignoring the cache-filling side effect). -/
def StateDB.accountView (s : StateDB) (a : Address) : Option Account :=
  (s.GetAccount a).1

/-- `StateDB.GetNonce` (0 for an absent account). -/
def StateDB.viewNonce (s : StateDB) (a : Address) : Nat :=
  ((s.accountView a).getD freshAccount).Nonce

/-- `StateDB.GetBalance` (0 for an absent account). -/
def StateDB.viewBalance (s : StateDB) (a : Address) : Int :=
  ((s.accountView a).getD freshAccount).Balance

/-- Non-increasing sequence of values (gas prices of a mining batch). -/
def nonIncr : List Int → Bool
  | a :: b :: t => decide (b ≤ a) && nonIncr (b :: t)
  | _ => true

/-! ## Concrete fixtures for counterexamples and witnesses -/

/-- A concrete header (all hash fields zero, difficulty 4). -/
def exHeader : BlockHeader :=
  { PreviousHash := zeroHash, StateRoot := zeroHash, TransactionsRoot := zeroHash,
    ReceiptsRoot := zeroHash, Number := 0, GasLimit := 8000000, GasUsed := 0,
    Timestamp := 0, Nonce := 0, Difficulty := 4, Coinbase := zeroAddress, ExtraData := [] }

/-- A concrete block over `exHeader`. -/
def exBlock : Block := { Header := exHeader, Transactions := [], Hash := zeroHash }

/-- A concrete parent block (number 0, hash 32 × 0x01). -/
def genBlock : Block :=
  { Header := { exHeader with Number := 0 }, Transactions := [],
    Hash := List.replicate 32 1 }

/-- A chain whose head is `genBlock`, over an empty byte store that
never fails. -/
def bcGen : Blockchain :=
  { db := { entries := [], okSched := [] }, currentBlock := some genBlock,
    genesis := some genBlock }

/-- A header violating the gas bound (`gas_used = 1 > 0 = gas_limit`)
but with a correct parent link and number. -/
def c2BadHeader : BlockHeader :=
  { exHeader with
    PreviousHash := List.replicate 32 1, Number := 1, GasLimit := 0, GasUsed := 1 }

def c2BadBlock0 : Block := { Header := c2BadHeader, Transactions := [], Hash := zeroHash }

/-- The gas-bound-violating block, carrying its correct header hash. -/
def c2BadBlock : Block := { c2BadBlock0 with Hash := c2BadBlock0.CalculateHash }

/-- A well-formed successor block of `genBlock` (gas bound satisfied). -/
def c2GoodHeader : BlockHeader :=
  { exHeader with
    PreviousHash := List.replicate 32 1, Number := 1, GasLimit := 8000000,
    GasUsed := 21000, Timestamp := 7 }

def c2GoodBlock0 : Block := { Header := c2GoodHeader, Transactions := [], Hash := zeroHash }

def c2GoodBlock : Block := { c2GoodBlock0 with Hash := c2GoodBlock0.CalculateHash }

/-- A chain state whose next two `Put` calls succeed and fail
respectively (the third flag is irrelevant). -/
def bcFailing : Blockchain :=
  { db := { entries := [], okSched := [true, false, true] },
    currentBlock := some genBlock, genesis := some genBlock }

/-- Two concrete addresses. -/
def addrA : Address := List.replicate 20 3

def addrB : Address := List.replicate 20 5

def acctX : Account := { Nonce := 1, Balance := 100, CodeHash := zeroHash, StorageRoot := zeroHash }

def acctY : Account := { Nonce := 2, Balance := 7, CodeHash := zeroHash, StorageRoot := zeroHash }

/-- The empty world state. -/
def emptyState : StateDB :=
  { stateRoot := zeroHash, dbAccounts := [], dbStorage := [],
    accounts := [], storage := [], logs := [] }

/-- A state caching two accounts, enumerated X-then-Y. -/
def sOrder1 : StateDB :=
  { emptyState with accounts := [(addrA, acctX), (addrB, acctY)] }

/-- The same two cached accounts, enumerated Y-then-X. -/
def sOrder2 : StateDB :=
  { emptyState with accounts := [(addrB, acctY), (addrA, acctX)] }

/-- A recovery function that always recovers `addrA` (standing for a
valid signature by the holder of `addrA`). -/
def recOkA : HashV → List Nat → Option Address := fun _ _ => some addrA

/-- A recovery function that always fails. -/
def recNone : HashV → List Nat → Option Address := fun _ _ => none

/-- A state whose byte store holds `addrA` with balance 1000000, nonce 0. -/
def sFunded : StateDB :=
  { emptyState with
    dbAccounts := [(addrA,
      { Nonce := 0, Balance := 1000000, CodeHash := zeroHash, StorageRoot := zeroHash })] }

/-- A transaction with a signature present (components 1,1,1). -/
def txSigned : Transaction :=
  { Nonce := 0, GasPrice := 1, GasLimit := 21000, To := some addrB, Value := 0,
    Data := [], V := some 1, R := some 1, S := some 1, Hash := zeroHash, From := addrA }

/-- C4 failing input: a call with one data byte and gas limit exactly
21000, so `executeContractCall` pushes `gasUsed` to 21700 before its
limit check, and the error is swallowed. -/
def txC4 : Transaction := { txSigned with Data := [1] }

/-- C5 failing input: a contract creation with data, whose gas limit
30000 lies below the 53000 needed, triggering the out-of-gas path. -/
def txC5 : Transaction := { txSigned with To := none, Data := [1], GasLimit := 30000 }

/-- C3 counterexample input: a self-transfer (`To = From`) of value 100. -/
def txSelf : Transaction := { txSigned with To := some addrA, Value := 100 }

/-- C3 witness input: an ordinary transfer of 1000 at gas price 2. -/
def txTransfer : Transaction :=
  { txSigned with GasPrice := 2, GasLimit := 25000, Value := 1000 }

/-- A cheap transaction (gas price 1) occupying a full pool. -/
def txLow : Transaction := { txSigned with GasPrice := 1, Hash := List.replicate 32 11 }

/-- An incoming transaction with a higher gas price. -/
def txHigh : Transaction := { txSigned with GasPrice := 5, Hash := List.replicate 32 12 }

/-- A heap-based mempool at capacity (`max_size = 1`) holding `txLow`. -/
def hmpFull : HMempool :=
  { config := { MaxSize := 1, MinGasPrice := 0, MaxTxSize := 0 },
    pending := [(txLow.Hash, txLow)],
    queue := [⟨txLow, 1⟩],
    byFrom := [(addrA, [txLow])] }

/-- A map-based mempool at capacity (`max_size = 1`) holding `txLow`. -/
def mmpFull : MMempool :=
  { config := { MaxSize := 1, MinGasPrice := 0 },
    transactions := [(txLow.Hash, txLow)],
    pending := [(addrA, [txLow])] }


/-! ## Heap-index ancestor relation and heap-order predicates (for the
mining-order verification) -/

/-- Iterated parent in the binary-tree indexing of `container/heap`
(the parent of `j` is `(j-1)/2`; node 0 is its own parent). -/
def iterPar : Nat → Nat → Nat
  | 0, j => j
  | m + 1, j => iterPar m ((j - 1) / 2)

/-- `Desc i j`: `j` lies in the subtree rooted at `i` (some number of
parent steps from `j` reaches `i`). -/
def Desc (i j : Nat) : Prop := ∃ m, iterPar m j = i

/-- Priority stored at position `i` of the queue. -/
def prAt (q : TQ) (i : Nat) : Int := (q.getD i dummyItem).Priority

/-- The heap-order condition at node `i` of a queue of bound `n`:
neither in-range child has higher priority. -/
def localAt (q : TQ) (n i : Nat) : Prop :=
  (2 * i + 1 < n → prAt q (2 * i + 1) ≤ prAt q i) ∧
  (2 * i + 2 < n → prAt q (2 * i + 2) ≤ prAt q i)

/-! ## Mining fixtures -/

def txM1 : Transaction := { dummyTransaction with GasPrice := 3, Hash := [1] }

def txM2 : Transaction := { dummyTransaction with GasPrice := 7, Hash := [2] }

def txM3 : Transaction := { dummyTransaction with GasPrice := 5, Hash := [3] }

/-- A three-transaction heap-variant pool (priorities = gas prices). -/
def hmpW : HMempool :=
  { config := { MaxSize := 10, MinGasPrice := 0, MaxTxSize := 0 },
    pending := [([1], txM1), ([2], txM2), ([3], txM3)],
    queue := [⟨txM1, 3⟩, ⟨txM2, 7⟩, ⟨txM3, 5⟩],
    byFrom := [] }

/-- A three-transaction map-variant pool. -/
def mmpW : MMempool :=
  { config := { MaxSize := 10, MinGasPrice := 0 },
    transactions := [([1], txM1), ([2], txM2), ([3], txM3)],
    pending := [] }
end Chain

/-! # Theorems -/

namespace Chain

section AssocLemmas

variable {κ α : Type} [DecidableEq κ]

theorem alookup_aset_self (k : κ) (v : α) (l : List (κ × α)) :
    alookup k (aset k v l) = some v := by
  induction l with
  | nil => simp [aset, alookup]
  | cons e t ih =>
    by_cases h : e.1 = k
    · simp [aset, alookup, h]
    · simp [aset, alookup, h, ih]

theorem alookup_aset_ne (k k' : κ) (v : α) (l : List (κ × α)) (h : k ≠ k') :
    alookup k' (aset k v l) = alookup k' l := by
  induction l with
  | nil => simp [aset, alookup, h]
  | cons e t ih =>
    by_cases he : e.1 = k
    · simp [aset, alookup, he, h]
    · simp only [aset, if_neg he, alookup]
      by_cases he' : e.1 = k'
      · simp [he']
      · simp [he', ih]

theorem aset_length_isSome (k : κ) (v : α) (l : List (κ × α))
    (h : (alookup k l).isSome) : (aset k v l).length = l.length := by
  induction l with
  | nil => simp [alookup] at h
  | cons e t ih =>
    by_cases he : e.1 = k
    · simp [aset, he]
    · simp only [alookup, if_neg he] at h
      simp [aset, he, ih h]

theorem aset_length_none (k : κ) (v : α) (l : List (κ × α))
    (h : alookup k l = none) : (aset k v l).length = l.length + 1 := by
  induction l with
  | nil => simp [aset]
  | cons e t ih =>
    by_cases he : e.1 = k
    · simp [alookup, he] at h
    · simp only [alookup, if_neg he] at h
      simp [aset, he, ih h]

theorem adelete_length_isSome (k : κ) (l : List (κ × α))
    (h : (alookup k l).isSome) : (adelete k l).length + 1 = l.length := by
  induction l with
  | nil => simp [alookup] at h
  | cons e t ih =>
    by_cases he : e.1 = k
    · simp [adelete, he]
    · simp only [alookup, if_neg he] at h
      simp [adelete, he, ih h]

end AssocLemmas

/-- Any `some` result of `validateSignature` is `InvalidSignature`. -/
theorem validateSignature_some {recover : HashV → List Nat → Option Address}
    {tx : Transaction} {e : ExecError}
    (h : validateSignature recover tx = some e) : e = ExecError.InvalidSignature := by
  unfold validateSignature at h
  split at h
  · dsimp only at h
    split at h
    · injection h with h; exact h.symm
    · split at h
      · exact Option.noConfusion h
      · injection h with h; exact h.symm
  · injection h with h; exact h.symm

/-- C1 (corrected).  The PoW preimage extends `BlockHeader.Serialize`
by the difficulty bytes, and the two digest routines use different hash
functions: `ProofOfWork.calculateHash` is SHA-256 over the extended
preimage while `Block.CalculateHash` is Keccak-256 over the serialized
header.  At the concrete all-zero header with difficulty 4 the two
digests differ, so mining and chain-side hash validation disagree. -/
theorem pow_and_block_hash_disagree :
    (∀ (difficulty : Int) (b : Block),
      powData difficulty b = b.Header.Serialize ++ intBytes difficulty ∧
      powCalculateHash difficulty b = BytesToHash (Sha256 (powData difficulty b)) ∧
      b.CalculateHash = BytesToHash (Keccak256 b.Header.Serialize)) ∧
    powCalculateHash 4 exBlock ≠ exBlock.CalculateHash := by
  constructor
  · intro difficulty b
    refine ⟨?_, rfl, rfl⟩
    simp [powData, BlockHeader.Serialize, List.append_assoc]
  · decide

/-- C1, counterexample to the claim as stated: at the concrete block
`exBlock` (with engine difficulty equal to the header difficulty 4),
`ProofOfWork.calculateHash` and `Block.CalculateHash` differ. -/
theorem pow_hash_ne_block_hash_cex :
    powCalculateHash exBlock.Header.Difficulty exBlock ≠ exBlock.CalculateHash := by
  decide

/-- C2 (corrected).  `Blockchain.AddBlock` validates only the hash
integrity, the parent link and the number sequence: every accepted
non-genesis block satisfies `CalculateHash = Hash`,
`previous_hash = parent hash`, `number = parent number + 1 > 0`, and
becomes the new head.  Neither the PoW target condition nor the gas
bound `gas_used ≤ gas_limit` is checked. -/
theorem AddBlock_validates_link_and_hash_only
    (ser : Block → List Nat) (bc : Blockchain) (b cur : Block) (bc' : Blockchain)
    (hcur : bc.currentBlock = some cur)
    (h : Blockchain.AddBlock ser bc b = (none, bc')) :
    b.CalculateHash = b.Hash ∧ b.Header.PreviousHash = cur.Hash ∧
    b.Header.Number = cur.Header.Number + 1 ∧ 0 < b.Header.Number ∧
    bc'.currentBlock = some b := by
  unfold Blockchain.AddBlock at h
  cases hv : bc.validateBlock b with
  | some e => rw [hv] at h; exact absurd (congrArg Prod.fst h) (by simp)
  | none =>
    rw [hv] at h
    unfold Blockchain.validateBlock at hv
    rw [hcur] at hv
    simp only [Option.isSome_some, and_true] at hv
    split_ifs at hv with h1 h2 h3 h4
    push_neg at h1 h2 h3 h4
    refine ⟨h4, h2, h3, h1, ?_⟩
    cases hdb : Blockchain.addBlockDb ser bc.db b with
    | mk err db' =>
      rw [hdb] at h
      cases err with
      | some e => exact absurd (congrArg Prod.fst h) (by simp)
      | none =>
        have := congrArg Prod.snd h
        simp only at this
        rw [← this]

/-- C2, witness: a concrete well-formed successor of `genBlock` is
accepted and all the validated facts hold. -/
theorem AddBlock_validates_link_and_hash_only_witness :
    c2GoodBlock.CalculateHash = c2GoodBlock.Hash ∧
    c2GoodBlock.Header.PreviousHash = genBlock.Hash ∧
    c2GoodBlock.Header.Number = genBlock.Header.Number + 1 ∧
    0 < c2GoodBlock.Header.Number ∧
    ((Blockchain.AddBlock (fun _ => []) bcGen c2GoodBlock).2).currentBlock =
      some c2GoodBlock :=
  AddBlock_validates_link_and_hash_only (fun _ => []) bcGen c2GoodBlock genBlock
    ((Blockchain.AddBlock (fun _ => []) bcGen c2GoodBlock).2) (by decide) (by decide)

/-- C2, counterexample to the claim as stated: `AddBlock` accepts the
concrete block `c2BadBlock` whose header has `gas_used = 1` above
`gas_limit = 0`, so accepted blocks need not satisfy the gas bound (nor,
a fortiori, is either invariant enforced by rejection). -/
theorem AddBlock_accepts_gas_violation_cex :
    (Blockchain.AddBlock (fun _ => []) bcGen c2BadBlock).1 = none ∧
    c2BadBlock.Header.GasLimit < c2BadBlock.Header.GasUsed := by
  decide

/-- C9 (corrected).  The persistence step `Blockchain.addBlock` issues
three separate `Put` calls in order — block bytes, number index, head
pointer — with an early return on the first failure and no write batch:
the store ends up with exactly the successful prefix of the three
writes applied, and the result is an error iff any `Put` failed. -/
theorem addBlock_sequential_puts (f1 f2 f3 : Bool) (rest : List Bool)
    (e : List (List Nat × List Nat)) (blk : Block) (ser : Block → List Nat) :
    (Blockchain.addBlockDb ser { entries := e, okSched := [f1, f2, f3] ++ rest } blk).1
        = (if f1 && f2 && f3 then none else some ChainError.PutFailed) ∧
    (Blockchain.addBlockDb ser { entries := e, okSched := [f1, f2, f3] ++ rest } blk).2.entries
        = (if f1 then
             if f2 then
               if f3 then
                 aset currentBlockKey blk.Hash
                   (aset (blockNumberPrefix ++ intBytes blk.Header.Number) blk.Hash
                     (aset (blockPrefix ++ blk.Hash) (ser blk) e))
               else
                 aset (blockNumberPrefix ++ intBytes blk.Header.Number) blk.Hash
                   (aset (blockPrefix ++ blk.Hash) (ser blk) e)
             else aset (blockPrefix ++ blk.Hash) (ser blk) e
           else e) := by
  cases f1 <;> cases f2 <;> cases f3 <;>
    simp [Blockchain.addBlockDb, DB.put]

/-- C9, counterexample to the claim as stated: with a store whose first
`Put` succeeds and whose second fails, `AddBlock` on the accepted block
`c2GoodBlock` reports an error, yet the `block-<hash>` key IS updated
while the other two keys are not — a partial persistence that an atomic
batch would forbid. -/
theorem addBlock_partial_write_cex :
    (Blockchain.AddBlock (fun _ => [7]) bcFailing c2GoodBlock).1 =
      some ChainError.PutFailed ∧
    ((Blockchain.AddBlock (fun _ => [7]) bcFailing c2GoodBlock).2).db.get
      (blockPrefix ++ c2GoodBlock.Hash) = some [7] ∧
    ((Blockchain.AddBlock (fun _ => [7]) bcFailing c2GoodBlock).2).db.get
      currentBlockKey = none ∧
    ((Blockchain.AddBlock (fun _ => [7]) bcFailing c2GoodBlock).2).db.get
      (blockNumberPrefix ++ intBytes c2GoodBlock.Header.Number) = none := by
  decide

/-- C8 (corrected).  The state root is deterministic only relative to
the enumeration order of the caches: states with equal account and
storage association lists (same iteration order) commit to equal roots,
and empty caches commit to the zero root.  (Sorted order is not used;
see the counterexample for order dependence.) -/
theorem stateRoot_deterministic_per_enumeration :
    (∀ s1 s2 : StateDB, s1.accounts = s2.accounts → s1.storage = s2.storage →
      (StateDB.Commit s1).1 = (StateDB.Commit s2).1 ∧
      s1.calculateStateRoot = s2.calculateStateRoot) ∧
    (∀ s : StateDB, s.accounts = [] → s.storage = [] →
      s.calculateStateRoot = zeroHash) := by
  constructor
  · intro s1 s2 h1 h2
    constructor
    · simp only [StateDB.Commit, StateDB.calculateStateRoot, h1, h2]
    · simp only [StateDB.calculateStateRoot, h1, h2]
  · intro s h1 h2
    simp [StateDB.calculateStateRoot, h1, h2]

/-- C8, witness: equal concrete caches give equal commit roots, and the
empty state commits to the zero root. -/
theorem stateRoot_deterministic_per_enumeration_witness :
    ((StateDB.Commit sOrder1).1 = (StateDB.Commit sOrder1).1 ∧
      sOrder1.calculateStateRoot = sOrder1.calculateStateRoot) ∧
    emptyState.calculateStateRoot = zeroHash :=
  ⟨stateRoot_deterministic_per_enumeration.1 sOrder1 sOrder1 rfl rfl,
   stateRoot_deterministic_per_enumeration.2 emptyState rfl rfl⟩

/-- C8, counterexample to the claim as stated: `sOrder1` and `sOrder2`
cache the same accounts (equal as maps: every address looks up to the
same account) and the same storage, yet `Commit` produces different
state roots, because the root hashes the accounts in map iteration
order, not in sorted address order. -/
theorem stateRoot_order_dependent_cex :
    (∀ a, alookup a sOrder1.accounts = alookup a sOrder2.accounts) ∧
    sOrder1.storage = sOrder2.storage ∧
    (StateDB.Commit sOrder1).1 ≠ (StateDB.Commit sOrder2).1 := by
  refine ⟨?_, rfl, by decide⟩
  intro a
  by_cases h1 : addrA = a
  · have h2 : ¬ (addrB = a) := fun hb => absurd (h1.trans hb.symm) (by decide)
    simp [sOrder1, sOrder2, emptyState, alookup, h1, h2]
  · by_cases h2 : addrB = a <;> simp [sOrder1, sOrder2, emptyState, alookup, h1, h2]

/-- The cache-filling side effect of `GetAccount` does not change the
observable account mapping. -/
theorem accountView_after_getAccount (s : StateDB) (a b : Address) :
    ((s.GetAccount a).2).accountView b = s.accountView b := by
  unfold StateDB.accountView StateDB.GetAccount
  cases h1 : alookup a s.accounts with
  | some acct => simp [h1]
  | none =>
    cases h2 : alookup a s.dbAccounts with
    | some acct =>
      by_cases hab : a = b
      · subst hab; simp [h1, h2, alookup_aset_self]
      · simp only [h1, h2, alookup_aset_ne a b acct s.accounts hab]
        cases hb1 : alookup b s.accounts with
        | some acct' => simp [hb1]
        | none =>
          cases hb2 : alookup b s.dbAccounts with
          | some acct' => simp [hb1, hb2]
          | none => simp [hb1, hb2]
    | none => simp [h1, h2]

/-- `GetAccount` touches only the account cache. -/
theorem getAccount_other_fields (s : StateDB) (a : Address) :
    ((s.GetAccount a).2).storage = s.storage ∧
    ((s.GetAccount a).2).dbAccounts = s.dbAccounts ∧
    ((s.GetAccount a).2).dbStorage = s.dbStorage ∧
    ((s.GetAccount a).2).logs = s.logs := by
  unfold StateDB.GetAccount
  cases h1 : alookup a s.accounts with
  | some acct => simp
  | none => cases h2 : alookup a s.dbAccounts with
    | some acct => simp
    | none => simp

/-- C10 (confirmed).  When `ExecuteTransaction` fails with an error —
necessarily `InvalidSignature`, `InvalidNonce` or
`InsufficientBalance` — the world state is observably unchanged: every
address maps to the same account as before (the only state effect is
`GetAccount` caching an already-persisted account), and the storage,
logs and backing store are untouched. -/
theorem execute_error_leaves_state_unchanged
    (recover : HashV → List Nat → Option Address) (s : StateDB) (tx : Transaction)
    (res : ExecutionResult) (e : ExecError) (s' : StateDB)
    (h : ExecuteTransaction recover s tx = (res, some e, s')) :
    (e = ExecError.InvalidSignature ∨ e = ExecError.InvalidNonce ∨
      e = ExecError.InsufficientBalance) ∧
    (∀ a, s'.accountView a = s.accountView a) ∧
    s'.storage = s.storage ∧ s'.dbAccounts = s.dbAccounts ∧
    s'.dbStorage = s.dbStorage ∧ s'.logs = s.logs := by
  unfold ExecuteTransaction at h
  cases hv : validateSignature recover tx with
  | some e' =>
    rw [hv] at h
    have he : e' = e := by
      have h1 := congrArg (fun p => p.2.1) h
      simpa using h1
    have hs : s = s' := by
      have h1 := congrArg (fun p => p.2.2) h
      simpa using h1
    subst hs
    exact ⟨Or.inl (he ▸ validateSignature_some hv), fun a => rfl, rfl, rfl, rfl, rfl⟩
  | none =>
    rw [hv] at h
    dsimp only at h
    by_cases hn : ((s.GetAccount tx.From).1.getD freshAccount).Nonce ≠ tx.Nonce
    · rw [if_pos hn] at h
      have he : ExecError.InvalidNonce = e := by
        have h1 := congrArg (fun p => p.2.1) h
        simpa using h1
      have hs : (s.GetAccount tx.From).2 = s' := by
        have h1 := congrArg (fun p => p.2.2) h
        simpa using h1
      subst hs
      refine ⟨Or.inr (Or.inl he.symm), fun a => accountView_after_getAccount s tx.From a,
        ?_, ?_, ?_, ?_⟩ <;> simp [getAccount_other_fields s tx.From]
    · rw [if_neg hn] at h
      by_cases hb : ((s.GetAccount tx.From).1.getD freshAccount).Balance <
          tx.Value + tx.GasPrice * toInt64 tx.GasLimit
      · rw [if_pos hb] at h
        have he : ExecError.InsufficientBalance = e := by
          have h1 := congrArg (fun p => p.2.1) h
          simpa using h1
        have hs : (s.GetAccount tx.From).2 = s' := by
          have h1 := congrArg (fun p => p.2.2) h
          simpa using h1
        subst hs
        refine ⟨Or.inr (Or.inr he.symm), fun a => accountView_after_getAccount s tx.From a,
          ?_, ?_, ?_, ?_⟩ <;> simp [getAccount_other_fields s tx.From]
      · rw [if_neg hb] at h
        exfalso
        have h2 := congrArg (fun p => p.2.1) h
        dsimp only at h2
        clear h
        repeat' split at h2
        all_goals simp [finishExecution] at h2

/-- C10, witness: a failed signature recovery leaves the concrete state
`emptyState` unchanged. -/
theorem execute_error_leaves_state_unchanged_witness :
    (ExecError.InvalidSignature = ExecError.InvalidSignature ∨
      ExecError.InvalidSignature = ExecError.InvalidNonce ∨
      ExecError.InvalidSignature = ExecError.InsufficientBalance) ∧
    (∀ a, ((ExecuteTransaction recNone emptyState txSigned).2.2).accountView a =
      emptyState.accountView a) ∧
    ((ExecuteTransaction recNone emptyState txSigned).2.2).storage = emptyState.storage ∧
    ((ExecuteTransaction recNone emptyState txSigned).2.2).dbAccounts = emptyState.dbAccounts ∧
    ((ExecuteTransaction recNone emptyState txSigned).2.2).dbStorage = emptyState.dbStorage ∧
    ((ExecuteTransaction recNone emptyState txSigned).2.2).logs = emptyState.logs :=
  execute_error_leaves_state_unchanged recNone emptyState txSigned
    (ExecuteTransaction recNone emptyState txSigned).1 ExecError.InvalidSignature
    (ExecuteTransaction recNone emptyState txSigned).2.2 (by decide)

/-! ### Machine-arithmetic lemmas for the gas refund -/

theorem toInt64_small {n : Nat} (h : n < 9223372036854775808) : toInt64 n = n := by
  unfold toInt64 w64
  split <;> omega

/-- The Go expression `big.NewInt(int64(a - b))` on `uint64` values
below `2^63` computes the exact signed difference, the wrap-around of
`a - b` being undone by the `int64` reinterpretation. -/
theorem u64sub_toInt64 {a b : Nat} (ha : a < 9223372036854775808)
    (hb : b < 9223372036854775808) : toInt64 (u64sub a b) = (a : Int) - b := by
  unfold toInt64 u64sub w64
  split <;> omega

theorem u64sub_eq_zero {a b : Nat} (ha : a < 9223372036854775808)
    (hb : b < 9223372036854775808) (h : ¬ 0 < u64sub a b) : a = b := by
  unfold u64sub w64 at h
  omega

/-- The common execution tail in closed form: status 1, and the sender
persisted with the value deducted and the signed gas difference
`gas_price * (gas_limit - gas_used)` applied (a refund when positive, a
further charge when the consumed gas overran the limit). -/
theorem finishExecution_spec (s : StateDB) (tx : Transaction) (sender : Account)
    (gu : Nat) (logs : List Log) (ca : Option Address)
    (hgl : tx.GasLimit < 9223372036854775808) (hgu : gu < 9223372036854775808) :
    finishExecution s tx sender gu logs ca =
      (⟨gu, 1, logs, ca, none⟩, none,
        s.SetAccount tx.From
          { sender with
            Balance := sender.Balance - tx.Value + tx.GasPrice * ((tx.GasLimit : Int) - gu) }) := by
  unfold finishExecution
  dsimp only
  by_cases h0 : 0 < u64sub tx.GasLimit gu
  · rw [if_pos h0, u64sub_toInt64 hgl hgu]
  · rw [if_neg h0]
    have heq : tx.GasLimit = gu := u64sub_eq_zero hgl hgu h0
    rw [heq]
    simp

theorem setAccount_viewNonce (s : StateDB) (a : Address) (acct : Account) :
    (s.SetAccount a acct).viewNonce a = acct.Nonce := by
  simp [StateDB.SetAccount, StateDB.viewNonce, StateDB.accountView, StateDB.GetAccount,
    alookup_aset_self]

theorem setAccount_viewBalance (s : StateDB) (a : Address) (acct : Account) :
    (s.SetAccount a acct).viewBalance a = acct.Balance := by
  simp [StateDB.SetAccount, StateDB.viewBalance, StateDB.accountView, StateDB.GetAccount,
    alookup_aset_self]

/-- C4 (code bug).  At the failing input `txC4` (a call carrying one
data byte with `gas_limit = 21000`), `executeContractCall` increments
the running gas to 21700 before its limit check, the resulting
`GasLimitExceeded` is swallowed by `ExecuteTransaction`, and the
transaction completes with status 1 and `GasUsed = 21700 > GasLimit`;
the `uint64` difference `GasLimit - gasUsed` wraps and the `int64`
reinterpretation turns the refund into an extra charge, leaving the
sender debited 21700 gas — more than `gas_price * gas_limit`. -/
theorem gasUsed_exceeds_gasLimit_bug :
    (ExecuteTransaction recOkA sFunded txC4).1.GasUsed = 21700 ∧
    (ExecuteTransaction recOkA sFunded txC4).1.Status = 1 ∧
    txC4.GasLimit = 21000 ∧
    txC4.GasLimit < (ExecuteTransaction recOkA sFunded txC4).1.GasUsed ∧
    0 < u64sub txC4.GasLimit (ExecuteTransaction recOkA sFunded txC4).1.GasUsed ∧
    toInt64 (u64sub txC4.GasLimit (ExecuteTransaction recOkA sFunded txC4).1.GasUsed) < 0 ∧
    ((ExecuteTransaction recOkA sFunded txC4).2.2).viewBalance addrA = 1000000 - 21700 := by
  decide

/-- C5 (corrected).  When a contract creation runs out of gas, the
result has status 0 with `GasUsed = 53000` and the remaining-gas
difference (negative, applied through the `int64` reinterpretation) is
refunded — but the balance deduction and nonce increment of step 5 are
NOT reverted: the sender keeps the incremented nonce and is charged the
full 53000 consumed gas (which exceeds the limit). -/
theorem creation_oog_keeps_nonce_and_charges_gas
    (recover : HashV → List Nat → Option Address) (s : StateDB) (tx : Transaction)
    (hTo : tx.To = none) (hData : 0 < tx.Data.length) (hgl : tx.GasLimit < 53000)
    (hsig : validateSignature recover tx = none)
    (hnonce : s.viewNonce tx.From = tx.Nonce)
    (hbal : ¬ (s.viewBalance tx.From < tx.Value + tx.GasPrice * toInt64 tx.GasLimit)) :
    (ExecuteTransaction recover s tx).1.Status = 0 ∧
    (ExecuteTransaction recover s tx).1.GasUsed = 53000 ∧
    (ExecuteTransaction recover s tx).1.Error = some ExecError.GasLimitExceeded ∧
    (ExecuteTransaction recover s tx).2.1 = none ∧
    ((ExecuteTransaction recover s tx).2.2).viewNonce tx.From =
      u64 (s.viewNonce tx.From + 1) ∧
    ((ExecuteTransaction recover s tx).2.2).viewBalance tx.From =
      s.viewBalance tx.From - 53000 * tx.GasPrice := by
  have hnn : ¬ (((s.GetAccount tx.From).1.getD freshAccount).Nonce ≠ tx.Nonce) :=
    fun hh => hh hnonce
  have hbal' : ¬ (((s.GetAccount tx.From).1.getD freshAccount).Balance <
      tx.Value + tx.GasPrice * toInt64 tx.GasLimit) := hbal
  have hcre : executeContractCreation tx
      (generateContractAddress tx.From (u64sub tx.Nonce 1)) 21000 =
      (none, some ExecError.GasLimitExceeded, 53000) := by
    unfold executeContractCreation
    have h53 : u64 (21000 + 32000) = 53000 := by decide
    rw [h53, if_pos (by omega)]
  unfold ExecuteTransaction
  rw [hsig]
  dsimp only
  rw [if_neg hnn, if_neg hbal', hTo, if_pos hData, hcre]
  dsimp only
  have hglI : toInt64 tx.GasLimit = (tx.GasLimit : Int) :=
    toInt64_small (by omega)
  have hrem : toInt64 (u64sub tx.GasLimit 53000) = (tx.GasLimit : Int) - 53000 :=
    u64sub_toInt64 (by omega) (by omega)
  refine ⟨rfl, rfl, rfl, rfl, ?_, ?_⟩
  · rw [setAccount_viewNonce]; rfl
  · rw [setAccount_viewBalance]
    show ((s.GetAccount tx.From).1.getD freshAccount).Balance -
        tx.GasPrice * toInt64 tx.GasLimit +
        tx.GasPrice * toInt64 (u64sub tx.GasLimit 53000) = _
    rw [hglI, hrem]
    unfold StateDB.viewBalance StateDB.accountView
    ring

/-- C5, witness: the out-of-gas creation `txC5` against the funded
state shows status 0, full 53000 charge and the kept nonce increment. -/
theorem creation_oog_keeps_nonce_and_charges_gas_witness :
    (ExecuteTransaction recOkA sFunded txC5).1.Status = 0 ∧
    (ExecuteTransaction recOkA sFunded txC5).1.GasUsed = 53000 ∧
    (ExecuteTransaction recOkA sFunded txC5).1.Error = some ExecError.GasLimitExceeded ∧
    (ExecuteTransaction recOkA sFunded txC5).2.1 = none ∧
    ((ExecuteTransaction recOkA sFunded txC5).2.2).viewNonce txC5.From =
      u64 (sFunded.viewNonce txC5.From + 1) ∧
    ((ExecuteTransaction recOkA sFunded txC5).2.2).viewBalance txC5.From =
      sFunded.viewBalance txC5.From - 53000 * txC5.GasPrice :=
  creation_oog_keeps_nonce_and_charges_gas recOkA sFunded txC5 (by decide) (by decide)
    (by decide) (by decide) (by decide) (by decide)

/-- Every gas total `executeContractCall` can return from the base
21000 stays far below `2^63`. -/
theorem executeContractCall_gas_lt (tx : Transaction) (a : Address) :
    (executeContractCall tx a 21000).2.2 < 9223372036854775808 := by
  unfold executeContractCall executeTransfer executeBalanceOf
  simp only [apply_ite (fun p : Option ContractExecutionResult × Option ExecError × Nat => p.2.2)]
  split_ifs <;> norm_num [u64, w64]

/-- The conclusion of the common execution tail, phrased against the
pre-execution observable state: sender nonce bumped once (mod `2^64`)
and balance down by exactly `value + gas_used * gas_price`. -/
theorem finish_conclusion (base s : StateDB) (tx : Transaction) (sender : Account)
    (gu : Nat) (logs : List Log) (ca : Option Address) (res : ExecutionResult)
    (s' : StateDB)
    (hgl : tx.GasLimit < 9223372036854775808) (hgu : gu < 9223372036854775808)
    (hNon : sender.Nonce = u64 (s.viewNonce tx.From + 1))
    (hBal : sender.Balance = s.viewBalance tx.From - tx.GasPrice * toInt64 tx.GasLimit)
    (h : finishExecution base tx sender gu logs ca = (res, none, s')) :
    s'.viewNonce tx.From = u64 (s.viewNonce tx.From + 1) ∧
    s'.viewBalance tx.From =
      s.viewBalance tx.From - tx.Value - res.GasUsed * tx.GasPrice := by
  rw [finishExecution_spec base tx sender gu logs ca hgl hgu] at h
  have hres : res = ⟨gu, 1, logs, ca, none⟩ := (congrArg (fun p => p.1) h).symm
  have hs' : s' = base.SetAccount tx.From
      { sender with
        Balance := sender.Balance - tx.Value + tx.GasPrice * ((tx.GasLimit : Int) - gu) } :=
    (congrArg (fun p => p.2.2) h).symm
  subst hs'
  refine ⟨?_, ?_⟩
  · rw [setAccount_viewNonce]; exact hNon
  · rw [setAccount_viewBalance]
    show sender.Balance - tx.Value + tx.GasPrice * ((tx.GasLimit : Int) - gu) = _
    rw [hBal, toInt64_small hgl, hres]
    show s.viewBalance tx.From - tx.GasPrice * (tx.GasLimit : Int) - tx.Value +
        tx.GasPrice * ((tx.GasLimit : Int) - gu) =
      s.viewBalance tx.From - tx.Value - (gu : Int) * tx.GasPrice
    ring

/-- C3 (corrected).  For every execution returning status 1 whose
recipient is not the sender itself (`To = none` or `To ≠ From`) and
whose gas limit fits in `int64`, the sender's nonce is bumped by exactly
one (mod `2^64`) and the sender's balance decreases by exactly
`value + GasUsed * gas_price`.  (For a self-transfer the cached sender
account is aliased with the receiver and the value deduction is
cancelled by the credit — see the counterexample; for `gas_limit ≥ 2^63`
the `int64` casts corrupt the gas cost.) -/
theorem execute_success_sender_accounting
    (recover : HashV → List Nat → Option Address) (s : StateDB) (tx : Transaction)
    (res : ExecutionResult) (s' : StateDB)
    (hgl : tx.GasLimit < 9223372036854775808)
    (hTo : tx.To = none ∨ tx.To ≠ some tx.From)
    (h : ExecuteTransaction recover s tx = (res, none, s'))
    (hst : res.Status = 1) :
    s'.viewNonce tx.From = u64 (s.viewNonce tx.From + 1) ∧
    s'.viewBalance tx.From =
      s.viewBalance tx.From - tx.Value - res.GasUsed * tx.GasPrice := by
  unfold ExecuteTransaction at h
  cases hv : validateSignature recover tx with
  | some e' =>
    rw [hv] at h
    have h1 := congrArg (fun p => p.2.1) h
    simp at h1
  | none =>
    rw [hv] at h
    dsimp only at h
    by_cases hn : ((s.GetAccount tx.From).1.getD freshAccount).Nonce ≠ tx.Nonce
    · rw [if_pos hn] at h
      have h1 := congrArg (fun p => p.2.1) h
      simp at h1
    · rw [if_neg hn] at h
      by_cases hb : ((s.GetAccount tx.From).1.getD freshAccount).Balance <
          tx.Value + tx.GasPrice * toInt64 tx.GasLimit
      · rw [if_pos hb] at h
        have h1 := congrArg (fun p => p.2.1) h
        simp at h1
      · rw [if_neg hb] at h
        rcases hTo' : tx.To with _ | dst
        · rw [hTo'] at h
          by_cases hd : tx.Data.length > 0
          · rw [if_pos hd] at h
            rcases hcre : executeContractCreation tx
                (generateContractAddress tx.From (u64sub tx.Nonce 1)) 21000 with ⟨rc, ec, gu⟩
            rw [hcre] at h
            cases ec with
            | some e =>
              have h1 := congrArg (fun p => p.1.Status) h
              simp only at h1
              rw [hst] at h1
              exact absurd h1.symm (by norm_num)
            | none =>
              unfold executeContractCreation at hcre
              rw [show u64 (21000 + 32000) = 53000 from by decide] at hcre
              by_cases hovf : 53000 > tx.GasLimit
              · rw [if_pos hovf] at hcre
                simp at hcre
              · rw [if_neg hovf] at hcre
                have hgu : gu = 53000 := by
                  simpa using (congrArg (fun p => p.2.2) hcre).symm
                subst hgu
                exact finish_conclusion _ s tx _ _ _ _ res s' hgl (by norm_num) rfl rfl h
          · rw [if_neg hd] at h
            exact finish_conclusion _ s tx _ _ _ _ res s' hgl (by norm_num) rfl rfl h
        · rw [hTo'] at h
          dsimp only at h
          have hdst : dst ≠ tx.From := by
            rcases hTo with hTo | hTo
            · rw [hTo'] at hTo; exact absurd hTo (by simp)
            · rw [hTo'] at hTo
              intro he
              exact hTo (by rw [he])
          split at h
          · rename_i hcond
            exact absurd hcond.2 hdst
          by_cases hd : tx.Data.length > 0
          · rw [if_pos hd] at h
            rcases hcc : executeContractCall tx dst 21000 with ⟨rc, ec, gu⟩
            have hgu : gu < 9223372036854775808 := by
              have := executeContractCall_gas_lt tx dst
              rw [hcc] at this
              exact this
            rw [hcc] at h
            cases rc with
            | some resc =>
              exact finish_conclusion _ s tx _ _ _ _ res s' hgl hgu rfl rfl h
            | none =>
              exact finish_conclusion _ s tx _ _ _ _ res s' hgl hgu rfl rfl h
          · rw [if_neg hd] at h
            exact finish_conclusion _ s tx _ _ _ _ res s' hgl (by norm_num) rfl rfl h

/-- C3, witness: the concrete transfer `txTransfer` (value 1000, gas
price 2) from the funded account ends with nonce 1 and balance
decreased by `1000 + 21000 * 2`. -/
theorem execute_success_sender_accounting_witness :
    ((ExecuteTransaction recOkA sFunded txTransfer).2.2).viewNonce txTransfer.From =
      u64 (sFunded.viewNonce txTransfer.From + 1) ∧
    ((ExecuteTransaction recOkA sFunded txTransfer).2.2).viewBalance txTransfer.From =
      sFunded.viewBalance txTransfer.From - txTransfer.Value -
        (ExecuteTransaction recOkA sFunded txTransfer).1.GasUsed * txTransfer.GasPrice :=
  execute_success_sender_accounting recOkA sFunded txTransfer
    (ExecuteTransaction recOkA sFunded txTransfer).1
    (ExecuteTransaction recOkA sFunded txTransfer).2.2
    (by decide) (Or.inr (by decide)) (by decide) (by decide)

/-- C3, counterexample to the claim as stated: the self-transfer
`txSelf` (value 100, `To = From`) returns status 1, but the sender's
balance decreases only by the gas (the value credit lands on the same
cached account object), so the claimed equality fails. -/
theorem execute_success_self_transfer_cex :
    (ExecuteTransaction recOkA sFunded txSelf).1.Status = 1 ∧
    (ExecuteTransaction recOkA sFunded txSelf).2.1 = none ∧
    ¬ (((ExecuteTransaction recOkA sFunded txSelf).2.2).viewBalance addrA =
        sFunded.viewBalance addrA - txSelf.Value -
          (ExecuteTransaction recOkA sFunded txSelf).1.GasUsed * txSelf.GasPrice) := by
  decide

/-- C5, counterexample to the claim as stated: in the concrete
out-of-gas creation the sender's nonce after execution is 1, not the
pre-execution 0 — the step-5 revert the claim describes does not
happen. -/
theorem creation_oog_nonce_not_reverted_cex :
    (ExecuteTransaction recOkA sFunded txC5).1.Status = 0 ∧
    (ExecuteTransaction recOkA sFunded txC5).1.Error = some ExecError.GasLimitExceeded ∧
    sFunded.viewNonce addrA = 0 ∧
    ((ExecuteTransaction recOkA sFunded txC5).2.2).viewNonce addrA = 1 := by
  decide

/-! ### Mempool lemmas -/

theorem alookup_isSome_of_mem {κ α : Type} [DecidableEq κ] {k : κ} {v : α}
    {l : List (κ × α)} (h : (k, v) ∈ l) : (alookup k l).isSome := by
  induction l with
  | nil => simp at h
  | cons e t ih =>
    by_cases he : e.1 = k
    · simp [alookup, he]
    · simp only [alookup, if_neg he]
      rcases List.mem_cons.1 h with h1 | h1
    -- the head case contradicts `he`
      · rw [← h1] at he; simp at he
      · exact ih h1

theorem alookup_adelete_none {κ α : Type} [DecidableEq κ] {k k' : κ}
    {l : List (κ × α)} (h : alookup k l = none) :
    alookup k (adelete k' l) = none := by
  induction l with
  | nil => simpa [adelete] using h
  | cons e t ih =>
    by_cases he : e.1 = k
    · simp [alookup, he] at h
    · simp only [alookup, if_neg he] at h
      by_cases he' : e.1 = k'
      · simp [adelete, he', h]
      · simp [adelete, he', alookup, if_neg he, ih h]

/-- The `removeLowPriorityTransaction` scan fold, started after its
first element: the final choice is in the scanned prefix and is a
minimum of it. -/
theorem findLowest_foldl (t : List (HashV × Transaction)) : ∀ (v : Transaction),
    ∃ w, t.foldl findLowestStep (some v, v.GasPrice) = (some w, w.GasPrice) ∧
      (w = v ∨ w ∈ t.map Prod.snd) ∧ w.GasPrice ≤ v.GasPrice ∧
      ∀ e ∈ t, w.GasPrice ≤ e.2.GasPrice := by
  induction t with
  | nil => exact fun v => ⟨v, rfl, Or.inl rfl, le_refl _, by simp⟩
  | cons e t ih =>
    intro v
    by_cases hc : e.2.GasPrice < v.GasPrice
    · obtain ⟨w, h1, h2, h3, h4⟩ := ih e.2
      refine ⟨w, ?_, ?_, ?_, ?_⟩
      · rw [List.foldl_cons, show findLowestStep (some v, v.GasPrice) e =
          (some e.2, e.2.GasPrice) from by simp [findLowestStep, hc]]
        exact h1
      · rcases h2 with h2 | h2
        · exact Or.inr (by simp [h2])
        · exact Or.inr (by simp [h2])
      · exact (lt_of_le_of_lt h3 hc).le
      · intro f hf
        rcases List.mem_cons.1 hf with hf | hf
        · rw [hf]; exact h3
        · exact h4 f hf
    · obtain ⟨w, h1, h2, h3, h4⟩ := ih v
      refine ⟨w, ?_, ?_, h3, ?_⟩
      · rw [List.foldl_cons, show findLowestStep (some v, v.GasPrice) e =
          (some v, v.GasPrice) from by simp [findLowestStep, hc]]
        exact h1
      · rcases h2 with h2 | h2
        · exact Or.inl h2
        · exact Or.inr (by simp [h2])
      · intro f hf
        rcases List.mem_cons.1 hf with hf | hf
        · rw [hf]; exact le_trans h3 (not_lt.1 hc)
        · exact h4 f hf

/-- `findLowest` on a non-empty enumeration returns a member with
minimal gas price. -/
theorem findLowest_spec (enum : List (HashV × Transaction)) (hne : enum ≠ []) :
    ∃ v, findLowest enum = some v ∧ v ∈ enum.map Prod.snd ∧
      ∀ e ∈ enum, v.GasPrice ≤ e.2.GasPrice := by
  cases enum with
  | nil => exact absurd rfl hne
  | cons e t =>
    obtain ⟨w, h1, h2, h3, h4⟩ := findLowest_foldl t e.2
    refine ⟨w, ?_, ?_, ?_⟩
    · unfold findLowest
      rw [List.foldl_cons, show findLowestStep (none, 0) e = (some e.2, e.2.GasPrice)
        from rfl, h1]
    · rcases h2 with h2 | h2
      · simp [h2]
      · simp [h2]
    · intro f hf
      rcases List.mem_cons.1 hf with hf | hf
      · rw [hf]; exact h3
      · exact h4 f hf

/-- Behaviour of the eviction step on a well-formed non-empty pool. -/
theorem removeLow_spec (enum : List (HashV × Transaction)) (mp : HMempool)
    (hperm : enum.Perm mp.pending)
    (hkeys : ∀ e ∈ mp.pending, e.1 = e.2.Hash)
    (hq : mp.queue.length = mp.pending.length)
    (hne : mp.pending ≠ []) :
    ∃ v, findLowest enum = some v ∧
      (∀ e ∈ enum, v.GasPrice ≤ e.2.GasPrice) ∧
      (removeLowPriorityTransaction enum mp).pending = adelete v.Hash mp.pending ∧
      (removeLowPriorityTransaction enum mp).pending.length + 1 = mp.pending.length ∧
      (removeLowPriorityTransaction enum mp).config = mp.config := by
  have hne' : enum ≠ [] := by
    intro he
    rw [he] at hperm
    exact hne (hperm.nil_eq).symm
  obtain ⟨v, hfl, hmem, hmin⟩ := findLowest_spec enum hne'
  have hqne : ¬ (mp.queue.length = 0) := by
    rw [hq]
    exact fun h0 => hne (List.length_eq_zero.1 h0)
  have hvp : (v.Hash, v) ∈ mp.pending := by
    rcases List.mem_map.1 hmem with ⟨e, he, hev⟩
    have he' : e ∈ mp.pending := hperm.mem_iff.1 he
    have hk := hkeys e he'
    rw [hev] at hk
    rw [← hk, ← hev]
    exact he'
  have hlen : (adelete v.Hash mp.pending).length + 1 = mp.pending.length :=
    adelete_length_isSome v.Hash mp.pending (alookup_isSome_of_mem hvp)
  refine ⟨v, hfl, hmin, ?_, ?_, ?_⟩
  · unfold removeLowPriorityTransaction
    rw [if_neg hqne, hfl]
  · unfold removeLowPriorityTransaction
    rw [if_neg hqne, hfl]
    exact hlen
  · unfold removeLowPriorityTransaction
    rw [if_neg hqne, hfl]

/-- C6 (corrected).  The heap-based `AddTransaction` on a full pool
evicts exactly one transaction with minimal gas price over the pool
(ties broken by the unspecified Go map iteration order, not necessarily
oldest-first), then inserts the new transaction and accepts; the pool
size never exceeds `max_size` (for `max_size ≥ 1`).  The map-based
`AddTransaction`, by contrast, rejects a full pool with
`ErrMempoolFull` and evicts nothing. -/
theorem mempool_capacity_eviction :
    (∀ (enum : List (HashV × Transaction)) (mp : HMempool) (tx : Transaction),
      enum.Perm mp.pending →
      (∀ e ∈ mp.pending, e.1 = e.2.Hash) →
      mp.queue.length = mp.pending.length →
      hValidateTransaction mp.config tx = none →
      alookup tx.Hash mp.pending = none →
      (mp.pending.length : Int) ≥ mp.config.MaxSize →
      mp.pending ≠ [] →
      (HMempool.AddTransaction enum mp tx).1 = none ∧
      ((HMempool.AddTransaction enum mp tx).2).pending.length = mp.pending.length ∧
      alookup tx.Hash ((HMempool.AddTransaction enum mp tx).2).pending = some tx ∧
      (∃ v : Transaction, findLowest enum = some v ∧
        (∀ e ∈ enum, v.GasPrice ≤ e.2.GasPrice) ∧
        ((HMempool.AddTransaction enum mp tx).2).pending =
          aset tx.Hash tx (adelete v.Hash mp.pending))) ∧
    (∀ (mp : MMempool) (tx : Transaction),
      (mp.transactions.length : Int) ≥ mp.config.MaxSize →
      MMempool.AddTransaction mp tx = (some MMemError.ErrMempoolFull, mp)) ∧
    (∀ (enum : List (HashV × Transaction)) (mp : HMempool) (tx : Transaction),
      enum.Perm mp.pending →
      (∀ e ∈ mp.pending, e.1 = e.2.Hash) →
      mp.queue.length = mp.pending.length →
      1 ≤ mp.config.MaxSize →
      (mp.pending.length : Int) ≤ mp.config.MaxSize →
      (((HMempool.AddTransaction enum mp tx).2).pending.length : Int) ≤
        mp.config.MaxSize) := by
  have haddfull : ∀ (enum : List (HashV × Transaction)) (mp : HMempool) (tx : Transaction),
      enum.Perm mp.pending →
      (∀ e ∈ mp.pending, e.1 = e.2.Hash) →
      mp.queue.length = mp.pending.length →
      hValidateTransaction mp.config tx = none →
      alookup tx.Hash mp.pending = none →
      (mp.pending.length : Int) ≥ mp.config.MaxSize →
      mp.pending ≠ [] →
      (HMempool.AddTransaction enum mp tx).1 = none ∧
      ((HMempool.AddTransaction enum mp tx).2).pending.length = mp.pending.length ∧
      alookup tx.Hash ((HMempool.AddTransaction enum mp tx).2).pending = some tx ∧
      (∃ v : Transaction, findLowest enum = some v ∧
        (∀ e ∈ enum, v.GasPrice ≤ e.2.GasPrice) ∧
        ((HMempool.AddTransaction enum mp tx).2).pending =
          aset tx.Hash tx (adelete v.Hash mp.pending)) := by
    intro enum mp tx hperm hkeys hq hval hnew hfull hne
    obtain ⟨v, hfl, hmin, hpend, hlen, _⟩ := removeLow_spec enum mp hperm hkeys hq hne
    have heq : HMempool.AddTransaction enum mp tx =
        (none,
         { config := (removeLowPriorityTransaction enum mp).config,
           pending := aset tx.Hash tx (removeLowPriorityTransaction enum mp).pending,
           queue := heapPush (removeLowPriorityTransaction enum mp).queue ⟨tx, tx.GasPrice⟩,
           byFrom := aset tx.From
             ((alookup tx.From (removeLowPriorityTransaction enum mp).byFrom).getD [] ++ [tx])
             (removeLowPriorityTransaction enum mp).byFrom }) := by
      unfold HMempool.AddTransaction
      rw [hval]
      dsimp only
      rw [hnew]
      simp only [Option.isSome_none, Bool.false_eq_true, if_false]
      rw [if_pos hfull]
    have hnew' : alookup tx.Hash (removeLowPriorityTransaction enum mp).pending = none := by
      rw [hpend]
      exact alookup_adelete_none hnew
    rw [hpend] at hnew' hlen
    rw [heq]
    refine ⟨rfl, ?_, ?_, v, hfl, hmin, ?_⟩
    · show (aset tx.Hash tx (removeLowPriorityTransaction enum mp).pending).length = _
      rw [hpend, aset_length_none tx.Hash tx _ hnew']
      omega
    · show alookup tx.Hash (aset tx.Hash tx (removeLowPriorityTransaction enum mp).pending)
        = some tx
      exact alookup_aset_self tx.Hash tx _
    · show aset tx.Hash tx (removeLowPriorityTransaction enum mp).pending = _
      rw [hpend]
  refine ⟨haddfull, ?_, ?_⟩
  · intro mp tx hfull
    unfold MMempool.AddTransaction
    rw [if_pos hfull]
  · intro enum mp tx hperm hkeys hq hmax hsz
    unfold HMempool.AddTransaction
    cases hval : hValidateTransaction mp.config tx with
    | some e => simpa using hsz
    | none =>
      dsimp only
      cases hex : (alookup tx.Hash mp.pending).isSome with
      | true => simp only [hex, if_true]; exact hsz
      | false =>
        simp only [hex, Bool.false_eq_true, if_false]
        by_cases hfull : (mp.pending.length : Int) ≥ mp.config.MaxSize
        · rw [if_pos hfull]
          have hne : mp.pending ≠ [] := by
            intro h0
            rw [h0] at hfull
            simp at hfull
            omega
          obtain ⟨v, _, _, hpend, hlen, _⟩ := removeLow_spec enum mp hperm hkeys hq hne
          have hnew' : alookup tx.Hash (removeLowPriorityTransaction enum mp).pending
              = none := by
            rw [hpend]
            exact alookup_adelete_none (by
              cases halo : alookup tx.Hash mp.pending with
              | none => rfl
              | some t => rw [halo] at hex; simp at hex)
          show ((aset tx.Hash tx (removeLowPriorityTransaction enum mp).pending).length
            : Int) ≤ _
          rw [hpend] at hnew' hlen
          rw [hpend, aset_length_none tx.Hash tx _ hnew']
          omega
        · rw [if_neg hfull]
          have hnew' : alookup tx.Hash mp.pending = none := by
            cases halo : alookup tx.Hash mp.pending with
            | none => rfl
            | some t => rw [halo] at hex; simp at hex
          show ((aset tx.Hash tx mp.pending).length : Int) ≤ _
          rw [aset_length_none tx.Hash tx _ hnew']
          omega

/-- C6, witness: at the concrete full pools — the heap pool holding
`txLow` accepts `txHigh`, evicting the minimal `txLow`; the map pool
rejects with `ErrMempoolFull`. -/
theorem mempool_capacity_eviction_witness :
    ((HMempool.AddTransaction hmpFull.pending hmpFull txHigh).1 = none ∧
      ((HMempool.AddTransaction hmpFull.pending hmpFull txHigh).2).pending.length =
        hmpFull.pending.length ∧
      alookup txHigh.Hash
        ((HMempool.AddTransaction hmpFull.pending hmpFull txHigh).2).pending = some txHigh ∧
      (∃ v : Transaction, findLowest hmpFull.pending = some v ∧
        (∀ e ∈ hmpFull.pending, v.GasPrice ≤ e.2.GasPrice) ∧
        ((HMempool.AddTransaction hmpFull.pending hmpFull txHigh).2).pending =
          aset txHigh.Hash txHigh (adelete v.Hash hmpFull.pending))) ∧
    MMempool.AddTransaction mmpFull txHigh = (some MMemError.ErrMempoolFull, mmpFull) :=
  ⟨mempool_capacity_eviction.1 hmpFull.pending hmpFull txHigh (List.Perm.refl _)
      (by decide) (by decide) (by decide) (by decide) (by decide) (by decide),
   mempool_capacity_eviction.2.1 mmpFull txHigh (by decide)⟩

/-- C6, counterexample to the claim as stated: the map-based
`AddTransaction` on the full pool `mmpFull` returns `ErrMempoolFull`
for the valid, new, higher-priced `txHigh` — no eviction, no
acceptance. -/
theorem mempool_full_rejects_cex :
    MMempool.AddTransaction mmpFull txHigh = (some MMemError.ErrMempoolFull, mmpFull) ∧
    mValidateTransaction mmpFull.config txHigh = none ∧
    alookup txHigh.Hash mmpFull.transactions = none ∧
    mmpFull.transactions.length = 1 := by
  decide


/-! ## Mining order: verified heap and bubble sort (C7) -/

theorem getD_set_eq {α : Type} (l : List α) (i : Nat) (v d : α) (h : i < l.length) :
    (l.set i v).getD i d = v := by
  induction l generalizing i with
  | nil => simp at h
  | cons a t ih =>
    cases i with
    | zero => simp [List.set]
    | succ i => simp only [List.set, List.getD, List.get?]; exact ih i (by simpa using h)

theorem getD_set_ne {α : Type} (l : List α) (i p : Nat) (v d : α) (h : i ≠ p) :
    (l.set i v).getD p d = l.getD p d := by
  induction l generalizing i p with
  | nil => simp [List.set]
  | cons a t ih =>
    cases i with
    | zero =>
      cases p with
      | zero => exact absurd rfl h
      | succ p => simp [List.set, List.getD]
    | succ i =>
      cases p with
      | zero => simp [List.set, List.getD]
      | succ p =>
        simp only [List.set, List.getD, List.get?]
        exact ih i p (fun he => h (by rw [he]))

theorem swapL_length (q : TQ) (i j : Nat) : (swapL q i j).length = q.length := by
  simp [swapL]

theorem swap_getD_left (q : TQ) (i j : Nat) (hi : i < q.length) (hj : j < q.length) :
    (swapL q i j).getD i dummyItem = q.getD j dummyItem := by
  unfold swapL
  by_cases hij : i = j
  · subst hij
    rw [getD_set_eq _ _ _ _ (by simpa using hi)]
  · rw [getD_set_ne _ _ _ _ _ (fun he => hij he.symm),
      getD_set_eq _ _ _ _ hi]

theorem swap_getD_right (q : TQ) (i j : Nat) (hj : j < q.length) :
    (swapL q i j).getD j dummyItem = q.getD i dummyItem := by
  unfold swapL
  rw [getD_set_eq _ _ _ _ (by simpa using hj)]

theorem swap_getD_other (q : TQ) (i j p : Nat) (hpi : p ≠ i) (hpj : p ≠ j) :
    (swapL q i j).getD p dummyItem = q.getD p dummyItem := by
  unfold swapL
  rw [getD_set_ne _ _ _ _ _ (fun he => hpj he.symm),
    getD_set_ne _ _ _ _ _ (fun he => hpi he.symm)]

theorem set_cons_perm (t : List QItem) : ∀ (j : Nat) (x : QItem), j < t.length →
    (t.getD j dummyItem :: t.set j x).Perm (x :: t) := by
  induction t with
  | nil => intro j x h; simp at h
  | cons a s ih =>
    intro j x h
    cases j with
    | zero =>
      simp only [List.getD, List.get?, List.set]
      exact List.Perm.swap x a s
    | succ j =>
      simp only [List.getD, List.get?, List.set]
      refine List.Perm.trans (List.Perm.swap a (s.getD j dummyItem) (s.set j x)) ?_
      exact List.Perm.trans (List.Perm.cons a (ih j x (by simpa using h)))
        (List.Perm.swap x a s)

theorem swapL_perm (q : TQ) : ∀ (i j : Nat), i < q.length → j < q.length →
    (swapL q i j).Perm q := by
  induction q with
  | nil => intro i j hi; simp at hi
  | cons a t ih =>
    intro i j hi hj
    cases i with
    | zero =>
      cases j with
      | zero =>
        unfold swapL
        simp only [List.getD, List.get?, List.set]
        exact List.Perm.refl _
      | succ j =>
        unfold swapL
        simp only [List.getD, List.get?, List.set]
        exact set_cons_perm t j a (by simpa using hj)
    | succ i =>
      cases j with
      | zero =>
        unfold swapL
        simp only [List.getD, List.get?, List.set]
        exact set_cons_perm t i a (by simpa using hi)
      | succ j =>
        unfold swapL
        simp only [List.getD, List.get?, List.set]
        exact List.Perm.cons a (ih i j (by simpa using hi) (by simpa using hj))

theorem mem_of_getD {α : Type} (l : List α) (i : Nat) (d : α) (h : i < l.length) :
    l.getD i d ∈ l := by
  induction l generalizing i with
  | nil => simp at h
  | cons a t ih =>
    cases i with
    | zero => simp [List.getD]
    | succ i =>
      simp only [List.getD, List.get?]
      exact List.mem_cons_of_mem a (ih i (by simpa using h))

theorem exists_getD_of_mem {α : Type} (l : List α) (x d : α) (h : x ∈ l) :
    ∃ i, i < l.length ∧ l.getD i d = x := by
  induction l with
  | nil => simp at h
  | cons a t ih =>
    rcases List.mem_cons.mp h with h1 | h1
    · exact ⟨0, by simp, by simp [List.getD, h1.symm]⟩
    · obtain ⟨i, hi, he⟩ := ih h1
      exact ⟨i + 1, by simpa using hi, by simpa [List.getD] using he⟩

theorem getD_take {α : Type} (l : List α) (n i : Nat) (d : α) (h : i < n) :
    (l.take n).getD i d = l.getD i d := by
  induction l generalizing n i with
  | nil => simp
  | cons a t ih =>
    cases n with
    | zero => omega
    | succ n =>
      cases i with
      | zero => simp [List.getD]
      | succ i => simpa [List.getD] using ih n i (by omega)

theorem drop_last {α : Type} (l : List α) : ∀ (n : Nat) (d : α), l.length = n + 1 →
    l.drop n = [l.getD n d] := by
  induction l with
  | nil => intro n d h; simp at h
  | cons a t ih =>
    intro n d h
    cases n with
    | zero =>
      have : t = [] := by
        cases t with
        | nil => rfl
        | cons b s => simp at h
      simp [this, List.getD]
    | succ n => simpa [List.getD] using ih n d (by simpa using h)

/-! ## Ancestor relation on heap indices -/

theorem iterPar_succ_out (m j : Nat) : iterPar (m + 1) j = (iterPar m j - 1) / 2 := by
  induction m generalizing j with
  | zero => rfl
  | succ m ih =>
    show iterPar (m + 1) ((j - 1) / 2) = _
    rw [ih ((j - 1) / 2)]
    rfl

theorem iterPar_add (a b j : Nat) : iterPar (a + b) j = iterPar a (iterPar b j) := by
  induction b generalizing j with
  | zero => rfl
  | succ b ih =>
    show iterPar (a + b + 1) j = _
    show iterPar (a + b) ((j - 1) / 2) = _
    rw [ih ((j - 1) / 2)]
    rfl

theorem iterPar_le (m j : Nat) : iterPar m j ≤ j := by
  induction m generalizing j with
  | zero => exact Nat.le_refl j
  | succ m ih =>
    show iterPar m ((j - 1) / 2) ≤ j
    exact Nat.le_trans (ih ((j - 1) / 2)) (by omega)

theorem Desc.refl (i : Nat) : Desc i i := ⟨0, rfl⟩

theorem Desc.trans {i j k : Nat} (h1 : Desc i j) (h2 : Desc j k) : Desc i k := by
  obtain ⟨a, ha⟩ := h1
  obtain ⟨b, hb⟩ := h2
  exact ⟨a + b, by rw [iterPar_add, hb, ha]⟩

theorem Desc.le {i j : Nat} (h : Desc i j) : i ≤ j := by
  obtain ⟨m, hm⟩ := h
  exact hm ▸ iterPar_le m j

theorem desc_parent {i j : Nat} (h : Desc i j) (hne : j ≠ i) : Desc i ((j - 1) / 2) := by
  obtain ⟨m, hm⟩ := h
  cases m with
  | zero => exact absurd hm hne
  | succ m => exact ⟨m, hm⟩

theorem desc_parent_rel (j : Nat) : Desc ((j - 1) / 2) j := ⟨1, rfl⟩

theorem desc_child_left (i : Nat) : Desc i (2 * i + 1) :=
  ⟨1, by show (2 * i + 1 - 1) / 2 = i; omega⟩

theorem desc_child_right (i : Nat) : Desc i (2 * i + 2) :=
  ⟨1, by show (2 * i + 2 - 1) / 2 = i; omega⟩

theorem desc_zero (p : Nat) : Desc 0 p := by
  induction p using Nat.strong_induction_on with
  | _ p ih =>
    cases p with
    | zero => exact Desc.refl 0
    | succ q =>
      exact Desc.trans (ih ((q + 1 - 1) / 2) (by omega)) (desc_parent_rel (q + 1))

theorem desc_split {i p : Nat} (h : Desc i p) (hne : p ≠ i) :
    Desc (2 * i + 1) p ∨ Desc (2 * i + 2) p := by
  obtain ⟨m, hm⟩ := h
  induction m generalizing p with
  | zero => exact absurd hm hne
  | succ m ih =>
    by_cases hpi : (p - 1) / 2 = i
    · have hp0 : p ≠ 0 := by
        intro h0
        subst h0
        simp at hpi
        omega
      have : p = 2 * i + 1 ∨ p = 2 * i + 2 := by omega
      rcases this with h1 | h1
      · exact Or.inl (h1 ▸ Desc.refl _)
      · exact Or.inr (h1 ▸ Desc.refl _)
    · have hrec := ih hpi hm
      rcases hrec with h1 | h1
      · exact Or.inl (Desc.trans h1 (desc_parent_rel p))
      · exact Or.inr (Desc.trans h1 (desc_parent_rel p))

theorem desc_sibling_disjoint {i p : Nat} :
    ¬ (Desc (2 * i + 1) p ∧ Desc (2 * i + 2) p) := by
  rintro ⟨⟨a, ha⟩, ⟨b, hb⟩⟩
  rcases Nat.le_total a b with hab | hab
  · obtain ⟨d, hd⟩ := Nat.exists_eq_add_of_le hab
    rw [hd, Nat.add_comm, iterPar_add, ha] at hb
    have := iterPar_le d (2 * i + 1)
    omega
  · obtain ⟨d, hd⟩ := Nat.exists_eq_add_of_le hab
    rw [hd, Nat.add_comm, iterPar_add, hb] at ha
    cases d with
    | zero => simp only [iterPar] at ha; omega
    | succ d =>
      have h1 : iterPar (d + 1) (2 * i + 2) = iterPar d i := by
        show iterPar d ((2 * i + 2 - 1) / 2) = iterPar d i
        congr 1
        omega
      rw [h1] at ha
      have := iterPar_le d i
      omega

theorem desc_of_desc_child {k c : Nat} (h : Desc k c) (hne : c ≠ k) :
    Desc k ((c - 1) / 2) := desc_parent h hne

/-- Two ancestors of the same node are comparable: the smaller one is an
ancestor of the larger one. -/
theorem desc_total {k j x : Nat} (h1 : Desc k x) (h2 : Desc j x) (hle : k ≤ j) :
    Desc k j := by
  obtain ⟨a, ha⟩ := h1
  obtain ⟨b, hb⟩ := h2
  rcases Nat.le_total b a with h | h
  · obtain ⟨d, hd⟩ := Nat.exists_eq_add_of_le h
    refine ⟨d, ?_⟩
    rw [← hb, ← iterPar_add, Nat.add_comm, ← hd, ha]
  · obtain ⟨d, hd⟩ := Nat.exists_eq_add_of_le h
    have hjk : Desc j k := by
      refine ⟨d, ?_⟩
      rw [← ha, ← iterPar_add, Nat.add_comm, ← hd, hb]
    have := hjk.le
    have hje : j = k := by omega
    exact hje ▸ Desc.refl j

theorem localAt_mono {q : TQ} {n n' j : Nat} (hle : n' ≤ n) (h : localAt q n j) :
    localAt q n' j :=
  ⟨fun hg => h.1 (by omega), fun hg => h.2 (by omega)⟩

theorem localAt_of_eqAt {q q' : TQ} {n j : Nat}
    (h1 : q'.getD j dummyItem = q.getD j dummyItem)
    (h2 : 2 * j + 1 < n → q'.getD (2 * j + 1) dummyItem = q.getD (2 * j + 1) dummyItem)
    (h3 : 2 * j + 2 < n → q'.getD (2 * j + 2) dummyItem = q.getD (2 * j + 2) dummyItem)
    (h : localAt q n j) : localAt q' n j := by
  constructor
  · intro hg
    show prAt q' (2 * j + 1) ≤ prAt q' j
    unfold prAt
    rw [h1, h2 hg]
    exact h.1 hg
  · intro hg
    show prAt q' (2 * j + 2) ≤ prAt q' j
    unfold prAt
    rw [h1, h3 hg]
    exact h.2 hg

theorem iterPar_zero_fix (m : Nat) : iterPar m 0 = 0 := by
  induction m with
  | zero => rfl
  | succ m ih => exact ih

theorem subtree_max {q : TQ} {n j : Nat} (hh : ∀ j', Desc j j' → localAt q n j') :
    ∀ (m p : Nat), iterPar m p = j → p < n → prAt q p ≤ prAt q j := by
  intro m
  induction m with
  | zero =>
    intro p hp _
    exact hp ▸ le_refl _
  | succ m ih =>
    intro p hp hn
    by_cases hpj : p = j
    · exact hpj ▸ le_refl _
    · have hm : iterPar m ((p - 1) / 2) = j := hp
      have hp0 : p ≠ 0 := by
        intro h0
        subst h0
        rw [show ((0 : Nat) - 1) / 2 = 0 from rfl, iterPar_zero_fix] at hm
        exact hpj hm
      have hchild : p = 2 * ((p - 1) / 2) + 1 ∨ p = 2 * ((p - 1) / 2) + 2 := by omega
      have hpar_lt : (p - 1) / 2 < n := by omega
      have hloc : localAt q n ((p - 1) / 2) := hh _ ⟨m, hm⟩
      have hstep : prAt q p ≤ prAt q ((p - 1) / 2) := by
        rcases hchild with hc | hc
        · have hg : 2 * ((p - 1) / 2) + 1 < n := by omega
          have hres := hloc.1 hg
          rw [← hc] at hres
          exact hres
        · have hg : 2 * ((p - 1) / 2) + 2 < n := by omega
          have hres := hloc.2 hg
          rw [← hc] at hres
          exact hres
      exact le_trans hstep (ih ((p - 1) / 2) hm hpar_lt)

theorem subtree_max_desc {q : TQ} {n j p : Nat} (hh : ∀ j', Desc j j' → localAt q n j')
    (hd : Desc j p) (hn : p < n) : prAt q p ≤ prAt q j := by
  obtain ⟨m, hm⟩ := hd
  exact subtree_max hh m p hm hn

/-- Full correctness of the `container/heap` sift-down: with enough fuel,
`downAux` preserves length and contents outside the subtree of `i`, is a
permutation, makes the subtree of `i` locally heap-ordered provided the
proper subtrees already were, and fills subtree positions only with
values drawn from subtree positions. -/
theorem downAux_spec : ∀ (fuel : Nat) (q : TQ) (i n : Nat),
    n ≤ q.length → n ≤ fuel + i →
    (∀ j, Desc i j → j ≠ i → localAt q n j) →
    (downAux fuel q i n).length = q.length ∧
    (∀ p, (¬ Desc i p ∨ n ≤ p) →
      (downAux fuel q i n).getD p dummyItem = q.getD p dummyItem) ∧
    (∀ j, Desc i j → localAt (downAux fuel q i n) n j) ∧
    (downAux fuel q i n).Perm q ∧
    (∀ p, Desc i p → p < n → ∃ p0, Desc i p0 ∧ p0 < n ∧
      (downAux fuel q i n).getD p dummyItem = q.getD p0 dummyItem) := by
  intro fuel
  induction fuel with
  | zero =>
    intro q i n hlen hfuel hsub
    refine ⟨rfl, fun p _ => rfl, ?_, List.Perm.refl q, fun p hd hp => ⟨p, hd, hp, rfl⟩⟩
    intro j hd
    by_cases hji : j = i
    · subst hji
      exact ⟨fun hg => absurd hg (by omega), fun hg => absurd hg (by omega)⟩
    · exact hsub j hd hji
  | succ fuel ih =>
    intro q i n hlen hfuel hsub
    by_cases h1 : 2 * i + 1 ≥ n
    · have hEq : downAux (fuel + 1) q i n = q := by
        simp only [downAux]
        rw [if_pos h1]
      rw [hEq]
      refine ⟨rfl, fun p _ => rfl, ?_, List.Perm.refl q, fun p hd hp => ⟨p, hd, hp, rfl⟩⟩
      intro j hd
      by_cases hji : j = i
      · subst hji
        exact ⟨fun hg => absurd hg (by omega), fun hg => absurd hg (by omega)⟩
      · exact hsub j hd hji
    · push_neg at h1
      have key : ∃ j, (j = 2 * i + 1 ∨ j = 2 * i + 2) ∧ j < n ∧
          (∀ c, (c = 2 * i + 1 ∨ c = 2 * i + 2) → c < n → prAt q c ≤ prAt q j) ∧
          downAux (fuel + 1) q i n =
            (if qless q j i then downAux fuel (swapL q i j) j n else q) := by
        by_cases hsel : 2 * i + 1 + 1 < n ∧ qless q (2 * i + 1 + 1) (2 * i + 1)
        · refine ⟨2 * i + 1 + 1, Or.inr rfl, hsel.1, ?_, ?_⟩
          · intro c hc hcn
            rcases hc with hc | hc
            · subst hc
              have hq := hsel.2
              unfold qless at hq
              simp only [decide_eq_true_eq] at hq
              exact le_of_lt hq
            · subst hc
              exact le_refl _
          · simp only [downAux]
            rw [if_neg (by omega : ¬ 2 * i + 1 ≥ n), if_pos hsel, ite_not]
        · refine ⟨2 * i + 1, Or.inl rfl, h1, ?_, ?_⟩
          · intro c hc hcn
            rcases hc with hc | hc
            · subst hc
              exact le_refl _
            · subst hc
              have hq : ¬ (qless q (2 * i + 1 + 1) (2 * i + 1) = true) := by
                intro hq
                exact hsel ⟨by omega, hq⟩
              unfold qless at hq
              simp only [decide_eq_true_eq, not_lt] at hq
              exact hq
          · simp only [downAux]
            rw [if_neg (by omega : ¬ 2 * i + 1 ≥ n), if_neg hsel, ite_not]
      obtain ⟨j, hj_cases, hjn, hjmax, hEq⟩ := key
      have hij : i < j := by rcases hj_cases with h | h <;> omega
      have hdij : Desc i j := by
        rcases hj_cases with h | h
        · exact h ▸ desc_child_left i
        · exact h ▸ desc_child_right i
      by_cases h2 : qless q j i
      · rw [if_pos h2] at hEq
        have hji_lt : prAt q i < prAt q j := by
          unfold qless at h2
          simpa only [decide_eq_true_eq] using h2
        have hin : i < n := by omega
        have hiq : i < q.length := by omega
        have hjq : j < q.length := by omega
        have hq1len : (swapL q i j).length = q.length := swapL_length q i j
        have hqsub : ∀ j', Desc j j' → localAt q n j' := by
          intro j' hd'
          by_cases hj' : j' = j
          · subst hj'
            exact hsub j' hdij (by omega)
          · have := hd'.le
            exact hsub j' (Desc.trans hdij hd') (by omega)
        have hrec_sub : ∀ p, Desc j p → p ≠ j → localAt (swapL q i j) n p := by
          intro p hd hpne
          have hjp : j < p := lt_of_le_of_ne hd.le (fun h => hpne h.symm)
          have hval : ∀ c, p ≤ c → (swapL q i j).getD c dummyItem = q.getD c dummyItem := by
            intro c hc
            exact swap_getD_other q i j c (by omega) (by omega)
          exact localAt_of_eqAt (hval p (le_refl p))
            (fun _ => hval _ (by omega)) (fun _ => hval _ (by omega))
            (hsub p (Desc.trans hdij hd) (by omega))
        have IH := ih (swapL q i j) j n (by rw [hq1len]; exact hlen) (by omega) hrec_sub
        obtain ⟨IHlen, IHout, IHloc, IHperm, IHprov⟩ := IH
        have hndji : ¬ Desc j i := fun hd => by have := hd.le; omega
        rw [hEq]
        have hTop : (downAux fuel (swapL q i j) j n).getD i dummyItem = q.getD j dummyItem := by
          rw [IHout i (Or.inl hndji)]
          exact swap_getD_left q i j hiq hjq
        have hChosen : prAt (downAux fuel (swapL q i j) j n) j ≤ prAt q j := by
          obtain ⟨p0, hd0, hp0n, hv0⟩ := IHprov j (Desc.refl j) hjn
          unfold prAt
          rw [hv0]
          by_cases hp0j : p0 = j
          · rw [hp0j, swap_getD_right q i j hjq]
            exact le_of_lt hji_lt
          · have hp0i : p0 ≠ i := by have := hd0.le; omega
            rw [swap_getD_other q i j p0 hp0i hp0j]
            exact subtree_max_desc hqsub hd0 hp0n
        have hOtherVal : ∀ c jj, (c = 2 * i + 1 ∨ c = 2 * i + 2) → c ≠ j → Desc c jj →
            (downAux fuel (swapL q i j) j n).getD jj dummyItem = q.getD jj dummyItem := by
          intro c jj hc hcj hd
          have hic : i < c := by rcases hc with h | h <;> omega
          have hnd : ¬ Desc j jj := by
            intro hjx
            rcases hj_cases with hj | hj <;> rcases hc with hcc | hcc
            · exact hcj (hcc.trans hj.symm)
            · exact desc_sibling_disjoint ⟨hj ▸ hjx, hcc ▸ hd⟩
            · exact desc_sibling_disjoint ⟨hcc ▸ hd, hj ▸ hjx⟩
            · exact hcj (hcc.trans hj.symm)
          rw [IHout jj (Or.inl hnd)]
          apply swap_getD_other
          · have := hd.le; omega
          · intro hxj
            exact hnd (hxj ▸ Desc.refl j)
        have hOtherSub : ∀ c jj, (c = 2 * i + 1 ∨ c = 2 * i + 2) → c ≠ j → Desc c jj →
            localAt (downAux fuel (swapL q i j) j n) n jj := by
          intro c jj hc hcj hd
          have hic : i < c := by rcases hc with h | h <;> omega
          have hdi : Desc i jj := by
            rcases hc with hcc | hcc
            · exact Desc.trans (hcc ▸ desc_child_left i) hd
            · exact Desc.trans (hcc ▸ desc_child_right i) hd
          refine localAt_of_eqAt (hOtherVal c jj hc hcj hd)
            (fun _ => hOtherVal c _ hc hcj (Desc.trans hd (desc_child_left jj)))
            (fun _ => hOtherVal c _ hc hcj (Desc.trans hd (desc_child_right jj)))
            (hsub jj hdi (by have := hd.le; omega))
        have hTop2 : prAt (downAux fuel (swapL q i j) j n) i = prAt q j := by
          unfold prAt
          rw [hTop]
        have hLocI : localAt (downAux fuel (swapL q i j) j n) n i := by
          constructor
          · intro hg
            show prAt _ (2 * i + 1) ≤ prAt _ i
            rw [hTop2]
            by_cases hcj : 2 * i + 1 = j
            · rw [hcj]
              exact hChosen
            · unfold prAt
              rw [hOtherVal (2 * i + 1) (2 * i + 1) (Or.inl rfl) hcj (Desc.refl _)]
              exact hjmax (2 * i + 1) (Or.inl rfl) hg
          · intro hg
            show prAt _ (2 * i + 2) ≤ prAt _ i
            rw [hTop2]
            by_cases hcj : 2 * i + 2 = j
            · rw [hcj]
              exact hChosen
            · unfold prAt
              rw [hOtherVal (2 * i + 2) (2 * i + 2) (Or.inr rfl) hcj (Desc.refl _)]
              exact hjmax (2 * i + 2) (Or.inr rfl) hg
        refine ⟨IHlen.trans hq1len, ?_, ?_, IHperm.trans (swapL_perm q i j hiq hjq), ?_⟩
        · intro p hp
          have hpj : ¬ Desc j p ∨ n ≤ p := by
            rcases hp with h | h
            · exact Or.inl (fun hd => h (Desc.trans hdij hd))
            · exact Or.inr h
          rw [IHout p hpj]
          apply swap_getD_other
          · intro hpi
            rcases hp with h | h
            · exact h (hpi ▸ Desc.refl i)
            · omega
          · intro hpj2
            rcases hp with h | h
            · exact h (hpj2 ▸ hdij)
            · omega
        · intro jj hd
          by_cases hji : jj = i
          · exact hji ▸ hLocI
          · rcases desc_split hd hji with hs | hs
            · rcases hj_cases with hj | hj
              · exact IHloc jj (hj ▸ hs)
              · exact hOtherSub (2 * i + 1) jj (Or.inl rfl) (by omega) hs
            · rcases hj_cases with hj | hj
              · exact hOtherSub (2 * i + 2) jj (Or.inr rfl) (by omega) hs
              · exact IHloc jj (hj ▸ hs)
        · intro p hd hp
          by_cases hpi : p = i
          · subst hpi
            exact ⟨j, hdij, hjn, by rw [hTop]⟩
          · rcases desc_split hd hpi with hs | hs
            · rcases hj_cases with hj | hj
              · obtain ⟨p0, hd0, hp0n, hv0⟩ := IHprov p (hj ▸ hs) hp
                by_cases hp0j : p0 = j
                · subst hp0j
                  refine ⟨i, Desc.refl i, hin, ?_⟩
                  rw [hv0]
                  exact swap_getD_right q i p0 hjq
                · refine ⟨p0, Desc.trans hdij hd0, hp0n, ?_⟩
                  rw [hv0]
                  exact swap_getD_other q i j p0 (by have := hd0.le; omega) hp0j
              · exact ⟨p, hd, hp, hOtherVal (2 * i + 1) p (Or.inl rfl) (by omega) hs⟩
            · rcases hj_cases with hj | hj
              · exact ⟨p, hd, hp, hOtherVal (2 * i + 2) p (Or.inr rfl) (by omega) hs⟩
              · obtain ⟨p0, hd0, hp0n, hv0⟩ := IHprov p (hj ▸ hs) hp
                by_cases hp0j : p0 = j
                · subst hp0j
                  refine ⟨i, Desc.refl i, hin, ?_⟩
                  rw [hv0]
                  exact swap_getD_right q i p0 hjq
                · refine ⟨p0, Desc.trans hdij hd0, hp0n, ?_⟩
                  rw [hv0]
                  exact swap_getD_other q i j p0 (by have := hd0.le; omega) hp0j
      · rw [if_neg h2] at hEq
        have hji_le : prAt q j ≤ prAt q i := by
          unfold qless at h2
          simpa only [decide_eq_true_eq, not_lt] using h2
        rw [hEq]
        refine ⟨rfl, fun p _ => rfl, ?_, List.Perm.refl q, fun p hd hp => ⟨p, hd, hp, rfl⟩⟩
        intro jj hd
        by_cases hji : jj = i
        · subst hji
          constructor
          · intro hg
            exact le_trans (hjmax (2 * jj + 1) (Or.inl rfl) hg) hji_le
          · intro hg
            exact le_trans (hjmax (2 * jj + 2) (Or.inr rfl) hg) hji_le
        · exact hsub jj hd hji

/-- Floyd heap construction: `heapInitAux k` establishes the heap order
at every index, given it already holds from `k` upward. -/
theorem heapInitAux_spec : ∀ (k : Nat) (q : TQ) (n : Nat), n ≤ q.length →
    (∀ j, k ≤ j → localAt q n j) →
    (heapInitAux k q n).length = q.length ∧ (heapInitAux k q n).Perm q ∧
    (∀ j, localAt (heapInitAux k q n) n j) := by
  intro k
  induction k with
  | zero =>
    intro q n hlen hinv
    exact ⟨rfl, List.Perm.refl q, fun j => hinv j (Nat.zero_le j)⟩
  | succ k ih =>
    intro q n hlen hinv
    simp only [heapInitAux, down]
    obtain ⟨Dlen, Dout, Dloc, Dperm, _⟩ := downAux_spec n q k n hlen (by omega)
      (fun j hd hne => hinv j (by have := hd.le; omega))
    have hinv2 : ∀ j, k ≤ j → localAt (downAux n q k n) n j := by
      intro j hj
      by_cases hd : Desc k j
      · exact Dloc j hd
      · have hne : j ≠ k := fun he => hd (he ▸ Desc.refl k)
        have hval : ∀ x, Desc j x → (downAux n q k n).getD x dummyItem = q.getD x dummyItem := by
          intro x hdx
          apply Dout
          exact Or.inl (fun hkx => hd (desc_total hkx hdx hj))
        exact localAt_of_eqAt (hval j (Desc.refl j))
          (fun _ => hval _ (desc_child_left j)) (fun _ => hval _ (desc_child_right j))
          (hinv j (by omega))
    obtain ⟨Ilen, Iperm, Iloc⟩ := ih (downAux n q k n) n (by rw [Dlen]; exact hlen) hinv2
    exact ⟨by rw [Ilen, Dlen], Iperm.trans Dperm, Iloc⟩

/-- `heap.Init` produces a heap-ordered permutation of the input. -/
theorem heapInit_spec (q : TQ) :
    (heapInit q).length = q.length ∧ (heapInit q).Perm q ∧
    (∀ j, localAt (heapInit q) q.length j) := by
  unfold heapInit
  apply heapInitAux_spec
  · exact le_refl _
  · intro j hj
    exact ⟨fun hg => absurd hg (by omega), fun hg => absurd hg (by omega)⟩

/-- `heap.Pop` on a heap-ordered queue returns the root (a maximal
element) and a heap-ordered remainder one shorter; together they are a
permutation of the input. -/
theorem heapPopGo_spec (q : TQ) (h0 : 0 < q.length)
    (hh : ∀ j, localAt q q.length j) :
    (heapPopGo q).1 = q.getD 0 dummyItem ∧
    (heapPopGo q).2.length = q.length - 1 ∧
    ((heapPopGo q).1 :: (heapPopGo q).2).Perm q ∧
    (∀ j, localAt (heapPopGo q).2 ((heapPopGo q).2.length) j) := by
  obtain ⟨Dlen, Dout, Dloc, Dperm, _⟩ :=
    downAux_spec (q.length - 1) (swapL q 0 (q.length - 1)) 0 (q.length - 1)
      (by rw [swapL_length]; omega) (by omega)
      (by
        intro j hd hne
        have hj1 : 1 ≤ j := by
          rcases Nat.eq_zero_or_pos j with h | h
          · exact absurd h hne
          · exact h
        by_cases hguard : 2 * j + 1 < q.length - 1
        · refine localAt_of_eqAt ?_ (fun hg => ?_) (fun hg => ?_)
            (localAt_mono (by omega) (hh j))
          · exact swap_getD_other q 0 (q.length - 1) j (by omega) (by omega)
          · exact swap_getD_other q 0 (q.length - 1) (2 * j + 1) (by omega) (by omega)
          · exact swap_getD_other q 0 (q.length - 1) (2 * j + 2) (by omega) (by omega)
        · exact ⟨fun hg => absurd hg hguard, fun hg => absurd hg (by omega)⟩)
  set q2 := downAux (q.length - 1) (swapL q 0 (q.length - 1)) 0 (q.length - 1) with hq2
  have hlen2 : q2.length = q.length := by rw [Dlen, swapL_length]
  have htop : (heapPopGo q).1 = q.getD 0 dummyItem := by
    show q2.getD (q.length - 1) dummyItem = q.getD 0 dummyItem
    rw [Dout (q.length - 1) (Or.inr (le_refl _))]
    exact swap_getD_right q 0 (q.length - 1) (by omega)
  have hrest : (heapPopGo q).2 = q2.take (q.length - 1) := rfl
  have hrlen : (heapPopGo q).2.length = q.length - 1 := by
    rw [hrest, List.length_take, hlen2]
    omega
  refine ⟨htop, hrlen, ?_, ?_⟩
  · have hdrop : q2.drop (q.length - 1) = [q2.getD (q.length - 1) dummyItem] :=
      drop_last q2 (q.length - 1) dummyItem (by rw [hlen2]; omega)
    have hsplit : q2 = (heapPopGo q).2 ++ [(heapPopGo q).1] := by
      conv_lhs => rw [← List.take_append_drop (q.length - 1) q2]
      rw [hdrop, hrest]
      rfl
    refine List.Perm.trans (List.perm_append_singleton _ _).symm ?_
    rw [← hsplit]
    exact Dperm.trans (swapL_perm q 0 (q.length - 1) h0 (by omega))
  · intro j
    rw [hrlen]
    by_cases hj : 2 * j + 1 < q.length - 1
    · refine localAt_of_eqAt ?_ (fun hg => ?_) (fun hg => ?_) (Dloc j (desc_zero j))
      · rw [hrest]
        exact getD_take q2 (q.length - 1) j dummyItem (by omega)
      · rw [hrest]
        exact getD_take q2 (q.length - 1) (2 * j + 1) dummyItem hg
      · rw [hrest]
        exact getD_take q2 (q.length - 1) (2 * j + 2) dummyItem hg
    · exact ⟨fun hg => absurd hg hj, fun hg => absurd hg (by omega)⟩

/-- The mining pop loop: with fuel at least the queue length, it pops
`min (queue length) (maxCount − count)` items, every popped item is a
member of the queue, and the popped priorities are non-increasing. -/
theorem popLoopAux_spec : ∀ (fuel : Nat) (q : TQ) (count maxC : Int),
    q.length ≤ fuel →
    (∀ j, localAt q q.length j) →
    (popLoopAux fuel q count maxC).length = min q.length (maxC - count).toNat ∧
    (∀ x ∈ popLoopAux fuel q count maxC, x ∈ q) ∧
    (popLoopAux fuel q count maxC).Pairwise (fun a b => b.Priority ≤ a.Priority) := by
  intro fuel
  induction fuel with
  | zero =>
    intro q count maxC hfuel hloc
    have hq0 : q.length = 0 := Nat.le_zero.mp hfuel
    refine ⟨?_, by simp [popLoopAux], by simp [popLoopAux]⟩
    simp only [popLoopAux, List.length_nil]
    omega
  | succ fuel ih =>
    intro q count maxC hfuel hloc
    simp only [popLoopAux]
    by_cases hc : q.length > 0 ∧ count < maxC
    · rw [if_pos hc]
      obtain ⟨hq0, hcm⟩ := hc
      obtain ⟨Ptop, Plen, Pperm, Ploc⟩ := heapPopGo_spec q hq0 hloc
      obtain ⟨Ilen, Imem, Ipair⟩ := ih (heapPopGo q).2 (count + 1) maxC
        (by rw [Plen]; omega) Ploc
      have hmem : ∀ x ∈ (heapPopGo q).1 :: popLoopAux fuel (heapPopGo q).2 (count + 1) maxC,
          x ∈ q := by
        intro x hx
        rcases List.mem_cons.mp hx with h | h
        · exact Pperm.subset (h ▸ List.mem_cons_self _ _)
        · exact Pperm.subset (List.mem_cons_of_mem _ (Imem x h))
      refine ⟨?_, hmem, ?_⟩
      · simp only [List.length_cons, Ilen, Plen]
        omega
      · refine List.pairwise_cons.mpr ⟨?_, Ipair⟩
        intro b hb
        have hbq : b ∈ q := Pperm.subset (List.mem_cons_of_mem _ (Imem b hb))
        obtain ⟨idx, hidx, hbeq⟩ := exists_getD_of_mem q b dummyItem hbq
        have hbound : prAt q idx ≤ prAt q 0 :=
          subtree_max_desc (fun j' _ => hloc j') (desc_zero idx) hidx
        rw [Ptop]
        show b.Priority ≤ (q.getD 0 dummyItem).Priority
        rw [← hbeq]
        exact hbound
    · rw [if_neg hc]
      refine ⟨?_, by simp, List.Pairwise.nil⟩
      simp only [List.length_nil]
      rcases not_and_or.mp hc with h | h
      · omega
      · omega

/-! ## Bubble sort (map-variant mining order) -/

theorem nonIncr_iff_pairwise : ∀ l : List Int,
    nonIncr l = true ↔ l.Pairwise (fun a b => b ≤ a) := by
  intro l
  induction l with
  | nil => simp [nonIncr]
  | cons a t ih =>
    cases t with
    | nil => simp [nonIncr]
    | cons b t2 =>
      rw [List.pairwise_cons]
      constructor
      · intro h
        simp only [nonIncr, Bool.and_eq_true, decide_eq_true_eq] at h
        have hpt : (b :: t2).Pairwise (fun a b => b ≤ a) := ih.mp h.2
        refine ⟨?_, hpt⟩
        intro x hx
        rcases List.mem_cons.mp hx with hx | hx
        · exact hx ▸ h.1
        · have := (List.pairwise_cons.mp hpt).1 x hx
          exact le_trans this h.1
      · intro h
        simp only [nonIncr, Bool.and_eq_true, decide_eq_true_eq]
        exact ⟨h.1 b (List.mem_cons_self b t2), ih.mpr h.2⟩

/-- One sweep step: `bubbleCarry a t` ends with a minimal element of
`a :: t`, keeps the length, and is a permutation of `a :: t`. -/
theorem bubbleCarry_spec : ∀ (t : List Transaction) (a : Transaction),
    ∃ u m, bubbleCarry a t = u ++ [m] ∧ u.length = t.length ∧
      (u ++ [m]).Perm (a :: t) ∧ (∀ x ∈ a :: t, m.GasPrice ≤ x.GasPrice) := by
  intro t
  induction t with
  | nil =>
    intro a
    refine ⟨[], a, rfl, rfl, List.Perm.refl _, ?_⟩
    intro x hx
    rcases List.mem_cons.mp hx with hx | hx
    · exact hx ▸ le_refl _
    · simp at hx
  | cons b t2 ih =>
    intro a
    by_cases hab : a.GasPrice < b.GasPrice
    · obtain ⟨u, m, heq, hlen, hperm, hmin⟩ := ih a
      refine ⟨b :: u, m, ?_, by simpa using hlen, ?_, ?_⟩
      · simp only [bubbleCarry, if_pos hab, heq]
        rfl
      · refine List.Perm.trans (List.Perm.cons b hperm) ?_
        exact List.Perm.swap a b t2
      · intro x hx
        rcases List.mem_cons.mp hx with hx | hx
        · exact hx ▸ hmin a (List.mem_cons_self a t2)
        · rcases List.mem_cons.mp hx with hx | hx
          · refine hx ▸ le_trans (hmin a (List.mem_cons_self a t2)) (le_of_lt hab)
          · exact hmin x (List.mem_cons_of_mem a hx)
    · obtain ⟨u, m, heq, hlen, hperm, hmin⟩ := ih b
      refine ⟨a :: u, m, ?_, by simpa using hlen, ?_, ?_⟩
      · simp only [bubbleCarry, if_neg hab, heq]
        rfl
      · exact List.Perm.cons a hperm
      · intro x hx
        rcases List.mem_cons.mp hx with hx | hx
        · exact hx ▸ le_trans (hmin b (List.mem_cons_self b t2)) (not_lt.mp hab)
        · exact hmin x hx

theorem onePass_cons_spec (l : List Transaction) (hne : l ≠ []) :
    ∃ u m, onePass l = u ++ [m] ∧ u.length = l.length - 1 ∧
      (u ++ [m]).Perm l ∧ (∀ x ∈ l, m.GasPrice ≤ x.GasPrice) := by
  cases l with
  | nil => exact absurd rfl hne
  | cons a t =>
    obtain ⟨u, m, heq, hlen, hperm, hmin⟩ := bubbleCarry_spec t a
    exact ⟨u, m, heq, by simpa using hlen, hperm, hmin⟩

/-- The shrinking-pass bubble sort: given the settled-suffix invariant,
the result is a permutation sorted non-increasingly by gas price. -/
theorem mSortAux_spec : ∀ (k : Nat) (l : List Transaction),
    (l.drop (k + 1)).Pairwise (fun a b => b.GasPrice ≤ a.GasPrice) →
    (∀ x ∈ l.take (k + 1), ∀ y ∈ l.drop (k + 1), y.GasPrice ≤ x.GasPrice) →
    (mSortAux k l).Perm l ∧
    (mSortAux k l).Pairwise (fun a b => b.GasPrice ≤ a.GasPrice) := by
  intro k
  induction k with
  | zero =>
    intro l h1 h2
    refine ⟨List.Perm.refl l, ?_⟩
    cases l with
    | nil => exact List.Pairwise.nil
    | cons a t =>
      simp only [List.drop_succ_cons, List.drop_zero] at h1
      simp only [List.take_succ_cons, List.take_zero, List.drop_succ_cons,
        List.drop_zero] at h2
      refine List.pairwise_cons.mpr ⟨?_, h1⟩
      intro x hx
      exact h2 a (List.mem_cons_self a []) x hx
  | succ k ih =>
    intro l h1 h2
    show (mSortAux k (onePass (l.take (k + 2)) ++ l.drop (k + 2))).Perm l ∧ _
    by_cases hl : l.take (k + 2) = []
    · have hlnil : l = [] := by
        cases l with
        | nil => rfl
        | cons a t => simp [List.take] at hl
      subst hlnil
      simp only [List.take_nil, List.drop_nil, List.append_nil]
      have := ih [] (by simp) (by simp)
      simpa [onePass] using this
    · obtain ⟨u, m, heq, hlen, hperm, hmin⟩ := onePass_cons_spec (l.take (k + 2)) hl
      have hpermL : (onePass (l.take (k + 2)) ++ l.drop (k + 2)).Perm l := by
        have hsp : (l.take (k + 2) ++ l.drop (k + 2)).Perm l := by
          rw [List.take_append_drop]
        refine List.Perm.trans ?_ hsp
        exact List.Perm.append_right (l.drop (k + 2)) (heq ▸ hperm)
      have hmemtake : ∀ x ∈ u ++ [m], x ∈ l.take (k + 2) := fun x hx => hperm.subset hx
      by_cases hlong : k + 2 ≤ l.length
      · have htlen : (l.take (k + 2)).length = k + 2 := by
          rw [List.length_take]
          omega
        have hulen : u.length = k + 1 := by
          rw [hlen, htlen]
          omega
        have hset : onePass (l.take (k + 2)) ++ l.drop (k + 2) =
            u ++ (m :: l.drop (k + 2)) := by
          rw [heq]
          simp
        have hdrop2 : (onePass (l.take (k + 2)) ++ l.drop (k + 2)).drop (k + 1) =
            m :: l.drop (k + 2) := by
          rw [hset, List.drop_append_of_le_length (by omega),
            List.drop_eq_nil_of_le (by omega)]
          simp
        have htake2 : (onePass (l.take (k + 2)) ++ l.drop (k + 2)).take (k + 1) = u := by
          rw [hset, List.take_append_of_le_length (by omega)]
          exact List.take_of_length_le (by omega)
        refine (ih (onePass (l.take (k + 2)) ++ l.drop (k + 2)) ?_ ?_).imp
          (fun hp => hp.trans hpermL) id
        · rw [hdrop2]
          refine List.pairwise_cons.mpr ⟨?_, h1⟩
          intro y hy
          have hm : m ∈ l.take (k + 2) := hmemtake m (by simp)
          exact h2 m hm y hy
        · rw [hdrop2, htake2]
          intro x hx y hy
          have hxt : x ∈ l.take (k + 2) := hmemtake x (by simp [hx])
          rcases List.mem_cons.mp hy with hy | hy
          · exact hy ▸ hmin x hxt
          · exact h2 x hxt y hy
      · have hdropnil : l.drop (k + 2) = [] := List.drop_eq_nil_of_le (by omega)
        have htakeall : l.take (k + 2) = l := List.take_of_length_le (by omega)
        refine (ih (onePass (l.take (k + 2)) ++ l.drop (k + 2)) ?_ ?_).imp
          (fun hp => hp.trans hpermL) id
        · have : (onePass (l.take (k + 2)) ++ l.drop (k + 2)).length ≤ k + 1 := by
            rw [hdropnil, List.append_nil, heq]
            have : (u ++ [m]).length = (l.take (k + 2)).length := hperm.length_eq
            rw [htakeall] at this
            omega
          rw [List.drop_eq_nil_of_le this]
          exact List.Pairwise.nil
        · intro x hx y hy
          have : (onePass (l.take (k + 2)) ++ l.drop (k + 2)).length ≤ k + 1 := by
            rw [hdropnil, List.append_nil, heq]
            have : (u ++ [m]).length = (l.take (k + 2)).length := hperm.length_eq
            rw [htakeall] at this
            omega
          rw [List.drop_eq_nil_of_le this] at hy
          simp at hy

/-- Heap-variant mining selection: length `min size maxCount` and
non-increasing gas prices, assuming the queue indexes the pending map
(equal sizes) and item priorities equal the transactions' gas prices —
both invariants of `AddTransaction`/`rebuildQueue`. -/
theorem miningHeapSpec (mp : HMempool) (maxC : Int)
    (hpr : ∀ it ∈ mp.queue, it.Priority = it.Tx.GasPrice)
    (hsz : mp.queue.length = mp.pending.length) :
    (HMempool.GetPendingTransactionsForMining mp maxC).length
      = min mp.pending.length maxC.toNat ∧
    nonIncr ((HMempool.GetPendingTransactionsForMining mp maxC).map
      (fun t => t.GasPrice)) = true := by
  unfold HMempool.GetPendingTransactionsForMining
  by_cases h0 : mp.queue.length = 0
  · rw [if_pos h0]
    constructor
    · rw [← hsz, h0]
      simp
    · simp [nonIncr]
  · rw [if_neg h0]
    obtain ⟨Hlen, Hperm, Hloc⟩ := heapInit_spec mp.queue
    have Hloc2 : ∀ j, localAt (heapInit mp.queue) (heapInit mp.queue).length j := by
      rw [Hlen]
      exact Hloc
    obtain ⟨Plen, Pmem, Ppair⟩ := popLoopAux_spec mp.queue.length (heapInit mp.queue)
      0 maxC (by rw [Hlen]) Hloc2
    constructor
    · rw [List.length_map, Plen, Hlen, hsz]
      congr 1
      omega
    · rw [nonIncr_iff_pairwise, List.map_map, List.pairwise_map]
      refine List.Pairwise.imp_of_mem ?_ Ppair
      intro a b ha hb hle
      have haq : a ∈ mp.queue := Hperm.subset (Pmem a ha)
      have hbq : b ∈ mp.queue := Hperm.subset (Pmem b hb)
      show b.Tx.GasPrice ≤ a.Tx.GasPrice
      rw [← hpr a haq, ← hpr b hbq]
      exact hle

/-- Map-variant mining selection: full bubble sort, truncation only for
a positive limit (limit 0 or negative returns everything). -/
theorem miningMapSpec (enum : List (HashV × Transaction)) (mp : MMempool) (limit : Int)
    (hperm : enum.Perm mp.transactions) :
    (MMempool.GetPendingTransactionsForMining enum mp limit).length =
      (if 0 < limit then min mp.transactions.length limit.toNat
       else mp.transactions.length) ∧
    nonIncr ((MMempool.GetPendingTransactionsForMining enum mp limit).map
      (fun t => t.GasPrice)) = true := by
  unfold MMempool.GetPendingTransactionsForMining
  obtain ⟨Sperm, Spair⟩ := mSortAux_spec ((enum.map (·.2)).length - 1) (enum.map (·.2))
    (by
      rw [List.drop_eq_nil_of_le (by omega)]
      exact List.Pairwise.nil)
    (by
      intro x hx y hy
      rw [List.drop_eq_nil_of_le (by omega)] at hy
      simp at hy)
  have hslen : (mSortAux ((enum.map (·.2)).length - 1) (enum.map (·.2))).length
      = mp.transactions.length := by
    rw [Sperm.length_eq, List.length_map, hperm.length_eq]
  constructor
  · by_cases hc : 0 < limit ∧
        ((mSortAux ((enum.map (·.2)).length - 1) (enum.map (·.2))).length : Int) > limit
    · rw [if_pos hc, List.length_take, if_pos hc.1]
      have hgt := hc.2
      rw [hslen] at hgt
      rw [hslen]
      omega
    · rw [if_neg hc]
      rcases not_and_or.mp hc with h | h
      · rw [if_neg h]
        exact hslen
      · push_neg at h
        rw [hslen] at h
        by_cases hl : 0 < limit
        · rw [if_pos hl, hslen]
          omega
        · rw [if_neg hl]
          exact hslen
  · rw [nonIncr_iff_pairwise]
    by_cases hc : 0 < limit ∧
        ((mSortAux ((enum.map (·.2)).length - 1) (enum.map (·.2))).length : Int) > limit
    · rw [if_pos hc]
      exact List.pairwise_map.mpr (List.Pairwise.sublist (List.take_sublist _ _) Spair)
    · rw [if_neg hc]
      exact List.pairwise_map.mpr Spair

/-- C7 (corrected): the heap-variant mining call returns
`min size maxCount` transactions in non-increasing gas-price order
(given the pool invariants priorities = gas prices and queue size =
pending size); the map variant returns a non-increasingly sorted list
that is truncated to `limit` only when `limit > 0` — with `limit = 0`
it returns all `size` transactions, not `min 0 size = 0`. -/
theorem getPendingForMining_sorted_and_counted :
    (∀ (mp : HMempool) (maxC : Int),
      (∀ it ∈ mp.queue, it.Priority = it.Tx.GasPrice) →
      mp.queue.length = mp.pending.length →
      (HMempool.GetPendingTransactionsForMining mp maxC).length
        = min mp.pending.length maxC.toNat ∧
      nonIncr ((HMempool.GetPendingTransactionsForMining mp maxC).map
        (fun t => t.GasPrice)) = true) ∧
    (∀ (enum : List (HashV × Transaction)) (mp : MMempool) (limit : Int),
      enum.Perm mp.transactions →
      (MMempool.GetPendingTransactionsForMining enum mp limit).length =
        (if 0 < limit then min mp.transactions.length limit.toNat
         else mp.transactions.length) ∧
      nonIncr ((MMempool.GetPendingTransactionsForMining enum mp limit).map
        (fun t => t.GasPrice)) = true) :=
  ⟨miningHeapSpec, miningMapSpec⟩

/-- Witness for C7 at concrete three-transaction pools with `maxCount = 2`. -/
theorem getPendingForMining_sorted_and_counted_witness :
    ((HMempool.GetPendingTransactionsForMining hmpW 2).length
        = min hmpW.pending.length (Int.toNat 2) ∧
      nonIncr ((HMempool.GetPendingTransactionsForMining hmpW 2).map
        (fun t => t.GasPrice)) = true) ∧
    ((MMempool.GetPendingTransactionsForMining mmpW.transactions mmpW 2).length =
        (if 0 < (2 : Int) then min mmpW.transactions.length (Int.toNat 2)
         else mmpW.transactions.length) ∧
      nonIncr ((MMempool.GetPendingTransactionsForMining mmpW.transactions mmpW 2).map
        (fun t => t.GasPrice)) = true) :=
  ⟨getPendingForMining_sorted_and_counted.1 hmpW 2 (by decide) (by decide),
   getPendingForMining_sorted_and_counted.2 mmpW.transactions mmpW 2 (List.Perm.refl _)⟩

/-- C7 counterexample: the map variant with `limit = 0` returns all 3
transactions, not `min 0 size = 0` as the spec claims. -/
theorem mining_limit_zero_returns_all_cex :
    (MMempool.GetPendingTransactionsForMining mmpW.transactions mmpW 0).length = 3 ∧
    mmpW.transactions.length = 3 ∧
    (MMempool.GetPendingTransactionsForMining mmpW.transactions mmpW 0).length
      ≠ min (Int.toNat 0) mmpW.transactions.length := ⟨rfl, rfl, by decide⟩
end Chain
